import Mathlib

/-!
# Fraction<T>: a shallow embedding of `src/Fraction.hpp`

`Fraction<T>` stores two fields of a signed integer type `T` of bit width `W`.
A field is modelled as an `Int` lying in `[tMin W, tMax W]`; every arithmetic
operation of the source is followed by an explicit reduction modulo `2 ^ W`
(`wrap`), which is what the fixed-width host arithmetic does with a result
that does not fit.  Integer division is modelled as fallible: a zero divisor
and the quotient `T_MIN / -1` have no defined result.  A C++ exception is
modelled as an `Except` error.
-/

namespace Fraction

/-- The two ways in which an operation of the class can fail to return. -/
inductive Fault where
  /-- The exception `std::invalid_argument` thrown by the class. -/
  | invalidArgument
  /-- An integer division without a defined result (divisor `0`, or `T_MIN / -1`). -/
  | undefinedDivision
  deriving DecidableEq, Repr

/-- The value `std::numeric_limits<T>::min()` for a signed type of `W` bits. -/
def tMin (W : Nat) : Int := -(2 ^ (W - 1))

/-- The value `std::numeric_limits<T>::max()` for a signed type of `W` bits. -/
def tMax (W : Nat) : Int := 2 ^ (W - 1) - 1

/-- A mathematical integer is representable in `T`. -/
def InT (W : Nat) (x : Int) : Prop := tMin W ≤ x ∧ x ≤ tMax W

instance (W : Nat) (x : Int) : Decidable (InT W x) := by
  unfold InT; exact inferInstance

/-- Conversion of a mathematical integer to the `W`-bit two's complement value
congruent to it modulo `2 ^ W`. -/
def wrap (W : Nat) (x : Int) : Int :=
  let r := x % 2 ^ W
  if r < 2 ^ (W - 1) then r else r - 2 ^ W

/-- Host addition on `T`. -/
def addT (W : Nat) (a b : Int) : Int := wrap W (a + b)

/-- Host subtraction on `T`. -/
def subT (W : Nat) (a b : Int) : Int := wrap W (a - b)

/-- Host multiplication on `T`. -/
def mulT (W : Nat) (a b : Int) : Int := wrap W (a * b)

/-- Host unary minus on `T`. -/
def negT (W : Nat) (a : Int) : Int := wrap W (-a)

/-- Host division on `T` (`/=`): truncation towards zero; no result for a zero
divisor or for `T_MIN / -1`. -/
def divT (W : Nat) (a b : Int) : Except Fault Int :=
  if b = 0 then .error .undefinedDivision
  else if a = tMin W ∧ b = -1 then .error .undefinedDivision
  else .ok (Int.tdiv a b)

/-- Modelled from the spec: `std::gcd` of `<numeric>` is a standard library
function, not part of the repository.  Section 4.2 step 1 of the specification
describes it as the gcd of the absolute values, with `gcd(0, d) = |d|`; the
result is returned in `T`, so the mathematical value `2 ^ (W - 1)` comes back
as `T_MIN`. -/
def gcdT (W : Nat) (m n : Int) : Int := wrap W (Int.gcd m n)

end Fraction

/-- The two private members of `Fraction<T>`. -/
structure Fraction where
  numerator_ : Int
  denominator_ : Int
  deriving DecidableEq, Repr

namespace Fraction

/-- The private method `Fraction<T>::reduce` (lines 119-144 of the source). -/
def reduce (W : Nat) (f : Fraction) : Except Fault Fraction :=
  let common_divisor := gcdT W f.numerator_ f.denominator_
  match divT W f.numerator_ common_divisor with
  | .error e => .error e
  | .ok numerator_ =>
    match divT W f.denominator_ common_divisor with
    | .error e => .error e
    | .ok denominator_ =>
      if denominator_ < 0 then
        if numerator_ = tMin W then
          if denominator_ = tMin W then
            .ok ⟨subT W (tMax W) 1, subT W (tMax W) 1⟩
          else
            .ok ⟨subT W (tMax W) 1, negT W denominator_⟩
        else if denominator_ = tMin W then
          if numerator_ = tMin W then
            .ok ⟨subT W (tMax W) 1, subT W (tMax W) 1⟩
          else
            .ok ⟨negT W numerator_, subT W (tMax W) 1⟩
        else
          .ok ⟨negT W numerator_, negT W denominator_⟩
      else
        .ok ⟨numerator_, denominator_⟩

/-- The constructor `Fraction<T>::Fraction(numerator, denominator)`
(lines 172-180 of the source). -/
def construct (W : Nat) (numerator denominator : Int) : Except Fault Fraction :=
  if denominator = 0 then .error .invalidArgument
  else reduce W ⟨numerator, denominator⟩

/-- The getter `getNumerator`. -/
def getNumerator (f : Fraction) : Int := f.numerator_

/-- The getter `getDenominator`. -/
def getDenominator (f : Fraction) : Int := f.denominator_

/-- The operator `Fraction + Fraction` (lines 211-214). -/
def add (W : Nat) (a b : Fraction) : Except Fault Fraction :=
  construct W
    (addT W (mulT W a.numerator_ b.denominator_) (mulT W a.denominator_ b.numerator_))
    (mulT W a.denominator_ b.denominator_)

/-- The operator `Fraction - Fraction` (lines 216-219). -/
def sub (W : Nat) (a b : Fraction) : Except Fault Fraction :=
  construct W
    (subT W (mulT W a.numerator_ b.denominator_) (mulT W a.denominator_ b.numerator_))
    (mulT W a.denominator_ b.denominator_)

/-- The operator `Fraction * Fraction` (lines 221-224). -/
def mul (W : Nat) (a b : Fraction) : Except Fault Fraction :=
  construct W (mulT W a.numerator_ b.numerator_) (mulT W a.denominator_ b.denominator_)

/-- The operator `Fraction / Fraction` (lines 226-231). -/
def div (W : Nat) (a b : Fraction) : Except Fault Fraction :=
  if b.numerator_ = 0 then .error .invalidArgument
  else construct W (mulT W a.numerator_ b.denominator_) (mulT W a.denominator_ b.numerator_)

/-- The promotion `Fraction<T>(value)` of a scalar: the constructor with its default
denominator `1` (line 26). -/
def ofScalar (W : Nat) (value : Int) : Except Fault Fraction := construct W value 1

/-- The operator `Fraction + T` (lines 233-236): `*this + Fraction(rhs)`. -/
def addScalar (W : Nat) (self : Fraction) (rhs : Int) : Except Fault Fraction :=
  (ofScalar W rhs).bind fun k => add W self k

/-- The operator `Fraction - T` (lines 238-241). -/
def subScalar (W : Nat) (self : Fraction) (rhs : Int) : Except Fault Fraction :=
  (ofScalar W rhs).bind fun k => sub W self k

/-- The operator `Fraction * T` (lines 243-246). -/
def mulScalar (W : Nat) (self : Fraction) (rhs : Int) : Except Fault Fraction :=
  (ofScalar W rhs).bind fun k => mul W self k

/-- The operator `Fraction / T` (lines 248-251). -/
def divScalar (W : Nat) (self : Fraction) (rhs : Int) : Except Fault Fraction :=
  (ofScalar W rhs).bind fun k => div W self k

/-- The friend operator `T + Fraction` (line 53): `Fraction(lhs) + fraction`. -/
def scalarAdd (W : Nat) (lhs : Int) (fraction : Fraction) : Except Fault Fraction :=
  (ofScalar W lhs).bind fun l => add W l fraction

/-- The friend operator `T - Fraction` (line 54). -/
def scalarSub (W : Nat) (lhs : Int) (fraction : Fraction) : Except Fault Fraction :=
  (ofScalar W lhs).bind fun l => sub W l fraction

/-- The friend operator `T * Fraction` (line 55). -/
def scalarMul (W : Nat) (lhs : Int) (fraction : Fraction) : Except Fault Fraction :=
  (ofScalar W lhs).bind fun l => mul W l fraction

/-- The friend operator `T / Fraction` (line 56). -/
def scalarDiv (W : Nat) (lhs : Int) (fraction : Fraction) : Except Fault Fraction :=
  (ofScalar W lhs).bind fun l => div W l fraction

/-! ### Mutating members

A mutating member is a function from the receiver before the call to the pair of the
outcome of the call and the receiver after it.  Fields assigned before an exception
stay assigned; an exception raised before any assignment leaves the receiver alone. -/

/-- The end of a mutating member: the new fields are stored if `e` returned them, and
the receiver stays `self` if `e` did not return. -/
def commit (self : Fraction) (e : Except Fault Fraction) : Except Fault Unit × Fraction :=
  match e with
  | .ok r => (.ok (), r)
  | .error err => (.error err, self)

/-- The operator `Fraction += Fraction` (lines 279-285): both fields are assigned, then
`reduce` runs on the receiver, without the zero check of the constructor. -/
def addAssign (W : Nat) (self other : Fraction) : Except Fault Unit × Fraction :=
  let numerator_ :=
    addT W (mulT W self.numerator_ other.denominator_) (mulT W other.numerator_ self.denominator_)
  let denominator_ := mulT W self.denominator_ other.denominator_
  commit ⟨numerator_, denominator_⟩ (reduce W ⟨numerator_, denominator_⟩)

/-- The operator `Fraction -= Fraction` (lines 287-293). -/
def subAssign (W : Nat) (self other : Fraction) : Except Fault Unit × Fraction :=
  let numerator_ :=
    subT W (mulT W self.numerator_ other.denominator_) (mulT W other.numerator_ self.denominator_)
  let denominator_ := mulT W self.denominator_ other.denominator_
  commit ⟨numerator_, denominator_⟩ (reduce W ⟨numerator_, denominator_⟩)

/-- The operator `Fraction *= Fraction` (lines 295-301). -/
def mulAssign (W : Nat) (self other : Fraction) : Except Fault Unit × Fraction :=
  let numerator_ := mulT W self.numerator_ other.numerator_
  let denominator_ := mulT W self.denominator_ other.denominator_
  commit ⟨numerator_, denominator_⟩ (reduce W ⟨numerator_, denominator_⟩)

/-- The operator `Fraction /= Fraction` (lines 303-312), for a right operand that is an
object other than the receiver. -/
def divAssign (W : Nat) (self other : Fraction) : Except Fault Unit × Fraction :=
  if other.numerator_ = 0 then (.error .invalidArgument, self)
  else
    let numerator_ := mulT W self.numerator_ other.denominator_
    let denominator_ := mulT W self.denominator_ other.numerator_
    commit ⟨numerator_, denominator_⟩ (reduce W ⟨numerator_, denominator_⟩)

/-- The operator `Fraction += T` (lines 314-318): `*this = *this + Fraction(rhs)`. -/
def addAssignScalar (W : Nat) (self : Fraction) (rhs : Int) : Except Fault Unit × Fraction :=
  commit self ((ofScalar W rhs).bind fun k => add W self k)

/-- The operator `Fraction -= T` (lines 320-324). -/
def subAssignScalar (W : Nat) (self : Fraction) (rhs : Int) : Except Fault Unit × Fraction :=
  commit self ((ofScalar W rhs).bind fun k => sub W self k)

/-- The operator `Fraction *= T` (lines 326-330). -/
def mulAssignScalar (W : Nat) (self : Fraction) (rhs : Int) : Except Fault Unit × Fraction :=
  commit self ((ofScalar W rhs).bind fun k => mul W self k)

/-- The operator `Fraction /= T` (lines 332-336). -/
def divAssignScalar (W : Nat) (self : Fraction) (rhs : Int) : Except Fault Unit × Fraction :=
  commit self ((ofScalar W rhs).bind fun k => div W self k)

/-- The prefix `++` (lines 253-257): `*this += 1`, then the receiver is returned.  The
first component is the returned value, the second the receiver after the call. -/
def preInc (W : Nat) (self : Fraction) : Except Fault Fraction × Fraction :=
  match addAssignScalar W self 1 with
  | (.ok _, s) => (.ok s, s)
  | (.error e, s) => (.error e, s)

/-- The prefix `--` (lines 259-263): `*this -= 1`, then the receiver is returned. -/
def preDec (W : Nat) (self : Fraction) : Except Fault Fraction × Fraction :=
  match subAssignScalar W self 1 with
  | (.ok _, s) => (.ok s, s)
  | (.error e, s) => (.error e, s)

/-- The postfix `++` (lines 265-270): a copy of the receiver is taken, the prefix form
runs, and the copy is returned. -/
def postInc (W : Nat) (self : Fraction) : Except Fault Fraction × Fraction :=
  let temp := self
  match preInc W self with
  | (.ok _, s) => (.ok temp, s)
  | (.error e, s) => (.error e, s)

/-- The postfix `--` (lines 272-277). -/
def postDec (W : Nat) (self : Fraction) : Except Fault Fraction × Fraction :=
  let temp := self
  match preDec W self with
  | (.ok _, s) => (.ok temp, s)
  | (.error e, s) => (.error e, s)

/-! ### Comparison -/

/-- The operator `Fraction == Fraction` (lines 338-341). -/
def eq (W : Nat) (self other : Fraction) : Bool :=
  decide (mulT W self.numerator_ other.denominator_ = mulT W self.denominator_ other.numerator_)

/-- The operator `Fraction != Fraction` (lines 343-346). -/
def ne (W : Nat) (self other : Fraction) : Bool := !(eq W self other)

/-- The operator `Fraction > Fraction` (lines 348-351). -/
def gt (W : Nat) (self other : Fraction) : Bool :=
  decide (mulT W self.numerator_ other.denominator_ > mulT W self.denominator_ other.numerator_)

/-- The operator `Fraction < Fraction` (lines 353-356). -/
def lt (W : Nat) (self other : Fraction) : Bool :=
  decide (mulT W self.numerator_ other.denominator_ < mulT W self.denominator_ other.numerator_)

/-- The operator `Fraction >= Fraction` (lines 358-361). -/
def ge (W : Nat) (self other : Fraction) : Bool := !(lt W self other)

/-- The operator `Fraction <= Fraction` (lines 363-366). -/
def le (W : Nat) (self other : Fraction) : Bool := !(gt W self other)

/-- The operator `Fraction == T` (lines 368-371): `*this == Fraction(value)`. -/
def eqScalar (W : Nat) (self : Fraction) (value : Int) : Except Fault Bool :=
  (ofScalar W value).bind fun v => .ok (eq W self v)

/-- The operator `Fraction != T` (lines 373-376). -/
def neScalar (W : Nat) (self : Fraction) (value : Int) : Except Fault Bool :=
  (ofScalar W value).bind fun v => .ok (ne W self v)

/-- The operator `Fraction > T` (lines 378-381). -/
def gtScalar (W : Nat) (self : Fraction) (value : Int) : Except Fault Bool :=
  (ofScalar W value).bind fun v => .ok (gt W self v)

/-- The operator `Fraction >= T` (lines 383-386). -/
def geScalar (W : Nat) (self : Fraction) (value : Int) : Except Fault Bool :=
  (ofScalar W value).bind fun v => .ok (ge W self v)

/-- The operator `Fraction < T` (lines 388-391). -/
def ltScalar (W : Nat) (self : Fraction) (value : Int) : Except Fault Bool :=
  (ofScalar W value).bind fun v => .ok (lt W self v)

/-- The operator `Fraction <= T` (lines 393-396). -/
def leScalar (W : Nat) (self : Fraction) (value : Int) : Except Fault Bool :=
  (ofScalar W value).bind fun v => .ok (le W self v)

/-- The operator `T == Fraction` (line 101, and again lines 398-401):
`Fraction(lhs) == rhs`. -/
def scalarEq (W : Nat) (lhs : Int) (rhs : Fraction) : Except Fault Bool :=
  (ofScalar W lhs).bind fun l => .ok (eq W l rhs)

/-- The operator `T != Fraction` (line 102, and again lines 403-406). -/
def scalarNe (W : Nat) (lhs : Int) (rhs : Fraction) : Except Fault Bool :=
  (ofScalar W lhs).bind fun l => .ok (ne W l rhs)

/-- The operator `T > Fraction` (line 103, and again lines 408-411). -/
def scalarGt (W : Nat) (lhs : Int) (rhs : Fraction) : Except Fault Bool :=
  (ofScalar W lhs).bind fun l => .ok (gt W l rhs)

/-- The operator `T >= Fraction` (line 104, and again lines 413-416). -/
def scalarGe (W : Nat) (lhs : Int) (rhs : Fraction) : Except Fault Bool :=
  (ofScalar W lhs).bind fun l => .ok (ge W l rhs)

/-- The operator `T < Fraction` (line 105, and again lines 418-421). -/
def scalarLt (W : Nat) (lhs : Int) (rhs : Fraction) : Except Fault Bool :=
  (ofScalar W lhs).bind fun l => .ok (lt W l rhs)

/-- The operator `T <= Fraction` (line 106, and again lines 423-426). -/
def scalarLe (W : Nat) (lhs : Int) (rhs : Fraction) : Except Fault Bool :=
  (ofScalar W lhs).bind fun l => .ok (le W l rhs)

/-! ### Conversion to text -/

/-- Modelled from the spec: `std::to_string` of `<string>` is a standard library
function, not part of the repository.  Section 4.5 of the specification gives the
result of `toString` as the two fields written out around a `/`; the library function
writes a signed integer in decimal, with a leading `-` for a negative value. -/
def to_string (x : Int) : String :=
  if x < 0 then "-" ++ Nat.repr x.natAbs else Nat.repr x.natAbs

/-- The member `toString` (lines 206-209). -/
def toString (f : Fraction) : String :=
  to_string f.numerator_ ++ "/" ++ to_string f.denominator_

/-! ### Compound division by the receiver itself -/

/-- The operator `Fraction /= Fraction` (lines 303-312) when the right operand is the
receiver itself, as in `a /= a`: `other` is a reference to the receiver, so the read of
`other.numerator_` in the second assignment sees the numerator that the first
assignment has just stored. -/
def divAssignSelf (W : Nat) (self : Fraction) : Except Fault Unit × Fraction :=
  if self.numerator_ = 0 then (.error .invalidArgument, self)
  else
    let numerator_ := mulT W self.numerator_ self.denominator_
    let denominator_ := mulT W self.denominator_ numerator_
    commit ⟨numerator_, denominator_⟩ (reduce W ⟨numerator_, denominator_⟩)

end Fraction

namespace Fraction

/-! ## Fixed-width arithmetic -/

theorem two_pow_width {W : Nat} (hW : 8 ≤ W) :
    (2 : Int) ^ W = 2 * 2 ^ (W - 1) ∧ (128 : Int) ≤ 2 ^ (W - 1) := by
  obtain ⟨k, rfl⟩ : ∃ k, W = k + 8 := ⟨W - 8, by omega⟩
  have h1 : k + 8 - 1 = k + 7 := by omega
  have hk : (1 : Int) ≤ 2 ^ k := one_le_pow₀ (by norm_num)
  rw [h1]
  constructor
  · ring
  · have : (2 : Int) ^ (k + 7) = 2 ^ k * 128 := by ring
    omega

theorem wrap_aux (P x : Int) (hP : 0 < P) (h1 : -P ≤ x) (h2 : x < P) :
    (if x % (2 * P) < P then x % (2 * P) else x % (2 * P) - 2 * P) = x := by
  by_cases hx : 0 ≤ x
  · have hm : x % (2 * P) = x := Int.emod_eq_of_lt hx (by omega)
    rw [hm, if_pos h2]
  · have hm : x % (2 * P) = x + 2 * P := by
      rw [← Int.add_emod_self]
      exact Int.emod_eq_of_lt (by omega) (by omega)
    rw [hm, if_neg (by omega)]
    omega

/-- A representable value is left alone by the conversion to `T`. -/
theorem wrap_of_inT {W : Nat} (hW : 8 ≤ W) {x : Int} (hx : InT W x) : wrap W x = x := by
  obtain ⟨hM, hP⟩ := two_pow_width hW
  unfold InT tMin tMax at hx
  unfold wrap
  simp only [hM]
  exact wrap_aux _ x (by omega) hx.1 (by omega)

/-- The value `2 ^ (W - 1)`, one more than `T_MAX`, converts to `T_MIN`. -/
theorem wrap_two_pow {W : Nat} (hW : 8 ≤ W) : wrap W (2 ^ (W - 1)) = tMin W := by
  obtain ⟨hM, hP⟩ := two_pow_width hW
  unfold wrap tMin
  simp only [hM]
  have hm : (2 : Int) ^ (W - 1) % (2 * 2 ^ (W - 1)) = 2 ^ (W - 1) :=
    Int.emod_eq_of_lt (by omega) (by omega)
  rw [hm, if_neg (by omega)]
  omega

/-- Every converted value is representable. -/
theorem wrap_inT {W : Nat} (hW : 8 ≤ W) (x : Int) : InT W (wrap W x) := by
  obtain ⟨hM, hP⟩ := two_pow_width hW
  unfold InT tMin tMax wrap
  simp only [hM]
  have h0 : 0 ≤ x % (2 * 2 ^ (W - 1)) := Int.emod_nonneg _ (by omega)
  have h1 : x % (2 * 2 ^ (W - 1)) < 2 * 2 ^ (W - 1) := Int.emod_lt_of_pos _ (by omega)
  split_ifs with h <;> constructor <;> omega

/-! ## The greatest common divisor of two fields -/

theorem gcd_bounds {W : Nat} (hW : 8 ≤ W) {n d : Int} (hd : InT W d) (hd0 : d ≠ 0) :
    (0 : Int) < Int.gcd n d ∧ (Int.gcd n d : Int) ≤ 2 ^ (W - 1) := by
  obtain ⟨_, hP⟩ := two_pow_width hW
  unfold InT tMin tMax at hd
  have hpos : 0 < Int.gcd n d := Int.gcd_pos_of_ne_zero_right n hd0
  refine ⟨by exact_mod_cast hpos, ?_⟩
  have hdvd : (Int.gcd n d : Int) ∣ d := Int.gcd_dvd_right
  rcases lt_or_gt_of_ne hd0 with h | h
  · have : (Int.gcd n d : Int) ≤ -d := Int.le_of_dvd (by omega) ((Int.dvd_neg).mpr hdvd)
    omega
  · have : (Int.gcd n d : Int) ≤ d := Int.le_of_dvd h hdvd
    omega

theorem eq_of_two_pow_dvd {P x : Int} (hP : 0 < P) (hdvd : P ∣ x) (h1 : -P ≤ x) (h2 : x < P) :
    x = 0 ∨ x = -P := by
  obtain ⟨k, rfl⟩ := hdvd
  have hk1 : -1 ≤ k := by
    by_contra h
    push_neg at h
    have h3 : k ≤ -2 := by omega
    nlinarith
  have hk2 : k ≤ 0 := by
    by_contra h
    push_neg at h
    nlinarith
  rcases (by omega : k = 0 ∨ k = -1) with rfl | rfl
  · left; ring
  · right; ring

/-- The gcd reaches `2 ^ (W - 1)` only for the denominator `T_MIN` and a numerator
that is `0` or `T_MIN`. -/
theorem gcd_eq_big {W : Nat} (hW : 8 ≤ W) {n d : Int} (hn : InT W n) (hd : InT W d)
    (hd0 : d ≠ 0) (hg : (Int.gcd n d : Int) = 2 ^ (W - 1)) :
    d = tMin W ∧ (n = 0 ∨ n = tMin W) := by
  obtain ⟨_, hP⟩ := two_pow_width hW
  have hdn : (2 : Int) ^ (W - 1) ∣ n := hg ▸ Int.gcd_dvd_left
  have hdd : (2 : Int) ^ (W - 1) ∣ d := hg ▸ Int.gcd_dvd_right
  unfold InT tMin tMax at hn hd
  unfold tMin
  have h1 := eq_of_two_pow_dvd (by omega) hdn hn.1 (by omega)
  have h2 := eq_of_two_pow_dvd (by omega) hdd hd.1 (by omega)
  exact ⟨h2.resolve_left hd0, h1⟩

/-- Below `2 ^ (W - 1)` the library gcd is the mathematical gcd. -/
theorem gcdT_small {W : Nat} (hW : 8 ≤ W) {n d : Int} (hd : InT W d) (hd0 : d ≠ 0)
    (hg : (Int.gcd n d : Int) < 2 ^ (W - 1)) : gcdT W n d = Int.gcd n d := by
  have hb := gcd_bounds hW (n := n) hd hd0
  unfold gcdT
  apply wrap_of_inT hW
  unfold InT tMin tMax
  constructor <;> omega

theorem div_between {g x q : Int} (hg : 1 ≤ g) (hx : x = g * q) :
    (0 ≤ q ∧ q ≤ x) ∨ (q < 0 ∧ x ≤ q) := by
  rcases le_or_lt 0 q with h | h
  · left; exact ⟨h, by nlinarith⟩
  · right; exact ⟨h, by nlinarith⟩

/-- Dividing a representable value by a positive divisor of it stays representable. -/
theorem inT_ediv {W : Nat} {g x : Int} (hg : 1 ≤ g) (hdvd : g ∣ x) (hx : InT W x) :
    InT W (x / g) := by
  have hq : x = g * (x / g) := (Int.mul_ediv_cancel' hdvd).symm
  unfold InT at *
  rcases div_between hg hq with h | h
  · have : tMin W ≤ 0 := by unfold tMin; have : (0:Int) < 2 ^ (W - 1) := by positivity
                            omega
    omega
  · have : 0 ≤ tMax W := by unfold tMax; have : (0:Int) < 2 ^ (W - 1) := by positivity
                            omega
    omega

/-- The host division by a positive exact divisor returns the exact quotient. -/
theorem divT_exact {W : Nat} {g x : Int} (hg : 1 ≤ g) (hdvd : g ∣ x) :
    divT W x g = .ok (x / g) := by
  unfold divT
  rw [if_neg (by omega), if_neg (by omega), Int.tdiv_eq_ediv_of_dvd hdvd]

theorem negT_eq {W : Nat} (hW : 8 ≤ W) {x : Int} (hx : InT W x) (hmin : x ≠ tMin W) :
    negT W x = -x := by
  unfold negT
  apply wrap_of_inT hW
  unfold InT tMin tMax at *
  constructor <;> omega

theorem tMax_sub_one {W : Nat} (hW : 8 ≤ W) : subT W (tMax W) 1 = tMax W - 1 := by
  obtain ⟨_, hP⟩ := two_pow_width hW
  unfold subT
  apply wrap_of_inT hW
  unfold InT tMin tMax
  constructor <;> omega

/-! ## What `reduce` computes -/

theorem natAbs_tMin (W : Nat) : ((tMin W).natAbs : Int) = 2 ^ (W - 1) := by
  unfold tMin
  rw [Int.natCast_natAbs, abs_neg, abs_of_pos (by positivity)]

theorem tMin_div_self {W : Nat} (hW : 8 ≤ W) : divT W (tMin W) (tMin W) = .ok 1 := by
  obtain ⟨_, hP⟩ := two_pow_width hW
  have h0 : tMin W ≠ 0 := by unfold tMin; omega
  have h1 : ¬ (tMin W = tMin W ∧ tMin W = -1) := by
    rintro ⟨-, h⟩
    unfold tMin at h
    omega
  unfold divT
  rw [if_neg h0, if_neg h1, Int.tdiv_eq_ediv_of_dvd (dvd_refl _), Int.ediv_self h0]

/-- The fields `0` and `T_MIN`: the gcd comes back as `T_MIN` and the result is `0/1`. -/
theorem reduce_zero_min {W : Nat} (hW : 8 ≤ W) :
    reduce W ⟨0, tMin W⟩ = .ok ⟨0, 1⟩ := by
  have hc : gcdT W 0 (tMin W) = tMin W := by
    unfold gcdT
    rw [Int.gcd_zero_left, natAbs_tMin, wrap_two_pow hW]
  have hP : (0 : Int) < 2 ^ (W - 1) := by positivity
  have h0 : tMin W ≠ 0 := by unfold tMin; omega
  have hz : divT W 0 (tMin W) = .ok 0 := by
    unfold divT
    rw [if_neg h0, if_neg (by rintro ⟨h, -⟩; exact h0 h.symm)]
    simp
  unfold reduce
  simp only [hc, hz, tMin_div_self hW]
  simp

/-- Both fields `T_MIN`: the gcd comes back as `T_MIN` and the result is `1/1`. -/
theorem reduce_min_min {W : Nat} (hW : 8 ≤ W) :
    reduce W ⟨tMin W, tMin W⟩ = .ok ⟨1, 1⟩ := by
  have hc : gcdT W (tMin W) (tMin W) = tMin W := by
    unfold gcdT
    rw [Int.gcd_self, natAbs_tMin, wrap_two_pow hW]
  unfold reduce
  simp only [hc, tMin_div_self hW]
  simp

/-- The reduced pair `n / g`, `d / g` is coprime, representable and `d / g` is not `0`. -/
theorem reduced_pair {W : Nat} (hW : 8 ≤ W) {n d : Int} (hn : InT W n) (hd : InT W d)
    (hd0 : d ≠ 0) :
    InT W (n / Int.gcd n d) ∧ InT W (d / Int.gcd n d) ∧ d / Int.gcd n d ≠ 0 ∧
      Int.gcd (n / Int.gcd n d) (d / Int.gcd n d) = 1 := by
  have hb := gcd_bounds hW (n := n) hd hd0
  have hgn : (Int.gcd n d : Int) ∣ n := Int.gcd_dvd_left
  have hgd : (Int.gcd n d : Int) ∣ d := Int.gcd_dvd_right
  refine ⟨inT_ediv (by omega) hgn hn, inT_ediv (by omega) hgd hd, ?_, ?_⟩
  · intro h
    have := Int.mul_ediv_cancel' hgd
    rw [h, mul_zero] at this
    exact hd0 this.symm
  · exact Int.gcd_div_gcd_div_gcd (Int.gcd_pos_of_ne_zero_right n hd0)

/-- The general case of `reduce`: the gcd is below `2 ^ (W - 1)`, both divisions are
exact, and the sign block acts on the quotients without any wrap-around. -/
theorem reduce_small {W : Nat} (hW : 8 ≤ W) {n d : Int} (hn : InT W n) (hd : InT W d)
    (hd0 : d ≠ 0) (hg : (Int.gcd n d : Int) < 2 ^ (W - 1)) :
    reduce W ⟨n, d⟩ = .ok
      (if d / Int.gcd n d < 0 then
        if n / Int.gcd n d = tMin W then ⟨tMax W - 1, -(d / Int.gcd n d)⟩
        else if d / Int.gcd n d = tMin W then ⟨-(n / Int.gcd n d), tMax W - 1⟩
        else ⟨-(n / Int.gcd n d), -(d / Int.gcd n d)⟩
      else ⟨n / Int.gcd n d, d / Int.gcd n d⟩) := by
  have hb := gcd_bounds hW (n := n) hd hd0
  have hgn : (Int.gcd n d : Int) ∣ n := Int.gcd_dvd_left
  have hgd : (Int.gcd n d : Int) ∣ d := Int.gcd_dvd_right
  obtain ⟨hn', hd', -, hcop⟩ := reduced_pair hW hn hd hd0
  obtain ⟨_, hP⟩ := two_pow_width hW
  unfold reduce
  simp only [gcdT_small hW hd hd0 hg, divT_exact (W := W) (by omega : (1 : Int) ≤ Int.gcd n d) hgn,
    divT_exact (W := W) (by omega : (1 : Int) ≤ Int.gcd n d) hgd, tMax_sub_one hW]
  by_cases h1 : d / Int.gcd n d < 0
  · simp only [if_pos h1]
    by_cases h2 : n / Int.gcd n d = tMin W
    · have h3 : d / Int.gcd n d ≠ tMin W := by
        intro h3
        rw [h2, h3, Int.gcd_self] at hcop
        have := natAbs_tMin W
        rw [hcop] at this
        omega
      simp only [if_pos h2, if_neg h3, negT_eq hW hd' h3]
    · simp only [if_neg h2]
      by_cases h3 : d / Int.gcd n d = tMin W
      · simp only [if_pos h3, negT_eq hW hn' h2]
      · simp only [if_neg h3, negT_eq hW hn' h2, negT_eq hW hd' h3]
  · simp only [if_neg h1]

/-! ## `reduce` as a function of its input fields -/

theorem even_tMin {W : Nat} (hW : 8 ≤ W) : tMin W % 2 = 0 := by
  apply Int.emod_eq_zero_of_dvd
  unfold tMin
  exact (Int.dvd_neg).mpr (dvd_pow_self 2 (by omega))

/-- A value is coprime to `T_MIN` exactly when it is odd. -/
theorem gcd_tMin_eq_one_iff {W : Nat} (hW : 8 ≤ W) (x : Int) :
    Int.gcd x (tMin W) = 1 ↔ x % 2 = 1 := by
  constructor
  · intro h
    by_contra hx
    have h2x : (2 : Int) ∣ x := by omega
    have h2m : (2 : Int) ∣ tMin W := Int.dvd_of_emod_eq_zero (even_tMin hW)
    have := Int.dvd_gcd h2x h2m
    rw [h] at this
    omega
  · intro h
    have hx : ¬ (2 : Nat) ∣ x.natAbs := by
      rw [← Int.natCast_dvd]
      omega
    have hc : Nat.Coprime x.natAbs 2 :=
      (Nat.coprime_comm).mp ((Nat.Prime.coprime_iff_not_dvd Nat.prime_two).mpr hx)
    have : Int.gcd x (tMin W) = Nat.gcd x.natAbs (2 ^ (W - 1)) := by
      unfold tMin
      rw [Int.gcd_neg]
      simp [Int.gcd, Int.natAbs_pow]
    rw [this]
    exact Nat.Coprime.pow_right _ hc

/-- A quotient by a positive exact divisor is `T_MIN` only if nothing was divided out. -/
theorem quot_eq_tMin {W : Nat} {g x : Int} (hg : 1 ≤ g) (hdvd : g ∣ x) (hx : InT W x)
    (h : x / g = tMin W) : x = tMin W ∧ g = 1 := by
  have hq : x = g * (x / g) := (Int.mul_ediv_cancel' hdvd).symm
  have hP : (0 : Int) < 2 ^ (W - 1) := by positivity
  have hx1 : tMin W ≤ x := hx.1
  have hneg : tMin W < 0 := by unfold tMin; omega
  rw [h] at hq
  have hg1 : g = 1 := by
    by_contra hne
    have : 2 ≤ g := by omega
    nlinarith
  subst hg1
  exact ⟨by omega, rfl⟩

theorem ediv_neg_iff {g x : Int} (hg : 1 ≤ g) (hdvd : g ∣ x) : x / g < 0 ↔ x < 0 := by
  have hq : x = g * (x / g) := (Int.mul_ediv_cancel' hdvd).symm
  rcases div_between hg hq with h | h <;> constructor <;> intro <;> omega

/-- The complete input-output behaviour of `reduce` on representable fields with a
non-zero denominator: the two single-field clamps, and otherwise the exact quotients
by the mathematical gcd with the sign of the denominator moved to the numerator. -/
theorem reduce_eq {W : Nat} (hW : 8 ≤ W) {n d : Int} (hn : InT W n) (hd : InT W d)
    (hd0 : d ≠ 0) :
    reduce W ⟨n, d⟩ = .ok
      (if d = tMin W ∧ n % 2 = 1 then ⟨-n, tMax W - 1⟩
      else if n = tMin W ∧ d < 0 ∧ d % 2 = 1 then ⟨tMax W - 1, -d⟩
      else ⟨Int.sign d * (n / Int.gcd n d), Int.sign d * (d / Int.gcd n d)⟩) := by
  have hb := gcd_bounds hW (n := n) hd hd0
  have hgn : (Int.gcd n d : Int) ∣ n := Int.gcd_dvd_left
  have hgd : (Int.gcd n d : Int) ∣ d := Int.gcd_dvd_right
  obtain ⟨_, hP⟩ := two_pow_width hW
  have hev := even_tMin hW
  have hg1 : (1 : Int) ≤ Int.gcd n d := by omega
  rcases lt_or_eq_of_le hb.2 with hg | hg
  · rw [reduce_small hW hn hd hd0 hg]
    congr 1
    by_cases h1 : d / Int.gcd n d < 0
    · have hdneg : d < 0 := (ediv_neg_iff hg1 hgd).mp h1
      have hs : Int.sign d = -1 := Int.sign_eq_neg_one_of_neg hdneg
      rw [if_pos h1]
      by_cases h2 : n / Int.gcd n d = tMin W
      · obtain ⟨hnmin, hone⟩ := quot_eq_tMin hg1 hgn hn h2
        have hdodd : d % 2 = 1 := by
          have h : Int.gcd d (tMin W) = 1 := by
            rw [Int.gcd_comm, ← hnmin]
            exact_mod_cast hone
          exact (gcd_tMin_eq_one_iff hW d).mp h
        have hc1 : ¬ (d = tMin W ∧ n % 2 = 1) := by
          rintro ⟨-, h⟩
          rw [hnmin] at h
          omega
        rw [if_pos h2, if_neg hc1, if_pos ⟨hnmin, hdneg, hdodd⟩, hone, Int.ediv_one]
      · rw [if_neg h2]
        by_cases h3 : d / Int.gcd n d = tMin W
        · obtain ⟨hdmin, hone⟩ := quot_eq_tMin hg1 hgd hd h3
          have hnodd : n % 2 = 1 := by
            have h : Int.gcd n (tMin W) = 1 := by
              rw [← hdmin]
              exact_mod_cast hone
            exact (gcd_tMin_eq_one_iff hW n).mp h
          rw [if_pos h3, if_pos ⟨hdmin, hnodd⟩, hone, Int.ediv_one]
        · have hc1 : ¬ (d = tMin W ∧ n % 2 = 1) := by
            rintro ⟨hdmin, hnodd⟩
            have h : Int.gcd n d = 1 := by
              rw [hdmin]
              exact (gcd_tMin_eq_one_iff hW n).mpr hnodd
            rw [h, Nat.cast_one, Int.ediv_one] at h3
            exact h3 hdmin
          have hc2 : ¬ (n = tMin W ∧ d < 0 ∧ d % 2 = 1) := by
            rintro ⟨hnmin, -, hdodd⟩
            have h : Int.gcd n d = 1 := by
              rw [hnmin, Int.gcd_comm]
              exact (gcd_tMin_eq_one_iff hW d).mpr hdodd
            rw [h, Nat.cast_one, Int.ediv_one] at h2
            exact h2 hnmin
          rw [if_neg h3, if_neg hc1, if_neg hc2, hs, neg_one_mul, neg_one_mul]
    · have hdpos : 0 < d := by
        have := (ediv_neg_iff hg1 hgd).not.mp h1
        omega
      have hs : Int.sign d = 1 := Int.sign_eq_one_of_pos hdpos
      have hdmin : d ≠ tMin W := by unfold tMin; omega
      rw [if_neg h1, if_neg (fun h => hdmin h.1), if_neg (fun h => by omega), hs, one_mul,
        one_mul]
  · obtain ⟨hdmin, hn0 | hnmin⟩ := gcd_eq_big hW hn hd hd0 hg
    · subst hn0
      have hdneg : d < 0 := by rw [hdmin]; unfold tMin; omega
      have hq : d / (Int.gcd 0 d : Int) = -1 := by
        rw [hg, hdmin]
        unfold tMin
        rw [Int.neg_ediv_of_dvd (dvd_refl _), Int.ediv_self (by omega)]
      rw [if_neg (by rintro ⟨-, h⟩; omega), if_neg (by rintro ⟨-, -, h⟩; omega),
        Int.sign_eq_neg_one_of_neg hdneg, hq, hdmin, reduce_zero_min hW]
      simp
    · have hdneg : d < 0 := by rw [hdmin]; unfold tMin; omega
      have hq : tMin W / (Int.gcd n d : Int) = -1 := by
        rw [hg]
        unfold tMin
        rw [Int.neg_ediv_of_dvd (dvd_refl _), Int.ediv_self (by omega)]
      rw [if_neg (by rintro ⟨-, h⟩; omega), if_neg (by rintro ⟨-, -, h⟩; omega),
        Int.sign_eq_neg_one_of_neg hdneg]
      rw [hdmin] at hq ⊢
      rw [hnmin] at hq ⊢
      rw [hq, reduce_min_min hW]
      simp

/-! ## Consequences for the constructor -/

theorem construct_of_ne_zero (W : Nat) (n : Int) {d : Int} (hd0 : d ≠ 0) :
    construct W n d = reduce W ⟨n, d⟩ := by
  unfold construct
  rw [if_neg hd0]

/-- The sign-normalised quotient of the denominator is positive. -/
theorem sign_mul_quot_pos {g d : Int} (hg : 1 ≤ g) (hdvd : g ∣ d) (hd0 : d ≠ 0) :
    0 < Int.sign d * (d / g) := by
  rcases lt_or_gt_of_ne hd0 with h | h
  · have := (ediv_neg_iff hg hdvd).mpr h
    rw [Int.sign_eq_neg_one_of_neg h]
    omega
  · have h1 := (ediv_neg_iff hg hdvd).not.mpr (by omega)
    have h2 : d / g ≠ 0 := by
      intro h0
      have := Int.mul_ediv_cancel' hdvd
      rw [h0, mul_zero] at this
      omega
    rw [Int.sign_eq_one_of_pos h]
    omega

/-- The sign-normalised quotients are coprime. -/
theorem sign_mul_quot_coprime (n : Int) {d : Int} (hd0 : d ≠ 0) :
    Int.gcd (Int.sign d * (n / Int.gcd n d)) (Int.sign d * (d / Int.gcd n d)) = 1 := by
  have hcop : Int.gcd (n / Int.gcd n d) (d / Int.gcd n d) = 1 :=
    Int.gcd_div_gcd_div_gcd (Int.gcd_pos_of_ne_zero_right n hd0)
  rcases lt_or_gt_of_ne hd0 with h | h
  · rw [Int.sign_eq_neg_one_of_neg h, neg_one_mul, neg_one_mul, Int.gcd_neg, Int.neg_gcd]
    exact hcop
  · rw [Int.sign_eq_one_of_pos h, one_mul, one_mul]
    exact hcop

/-- On representable fields with a non-zero denominator `reduce` returns, and what it
returns has a positive denominator. -/
theorem reduce_den_pos {W : Nat} (hW : 8 ≤ W) {n d : Int} (hn : InT W n) (hd : InT W d)
    (hd0 : d ≠ 0) : ∃ r, reduce W ⟨n, d⟩ = .ok r ∧ 0 < r.denominator_ := by
  obtain ⟨_, hP⟩ := two_pow_width hW
  have hb := gcd_bounds hW (n := n) hd hd0
  refine ⟨_, reduce_eq hW hn hd hd0, ?_⟩
  split_ifs with h1 h2
  · show 0 < tMax W - 1
    unfold tMax
    omega
  · show 0 < -d
    omega
  · exact sign_mul_quot_pos (by omega) Int.gcd_dvd_right hd0

/-- Whatever the constructor returns on representable arguments has a positive
denominator. -/
theorem construct_den_pos {W : Nat} (hW : 8 ≤ W) {n d : Int} (hn : InT W n) (hd : InT W d)
    {r : Fraction} (h : construct W n d = .ok r) : 0 < r.denominator_ := by
  by_cases hd0 : d = 0
  · unfold construct at h
    rw [if_pos hd0] at h
    cases h
  · obtain ⟨r', hr', hpos⟩ := reduce_den_pos hW hn hd hd0
    rw [construct_of_ne_zero W n hd0, hr'] at h
    cases h
    exact hpos

/-- Away from the two single-field clamps the constructor returns the sign-normalised
exact quotients. -/
theorem construct_normal {W : Nat} (hW : 8 ≤ W) {n d : Int} (hn : InT W n) (hd : InT W d)
    (hd0 : d ≠ 0) (h1 : ¬ (d = tMin W ∧ n % 2 = 1))
    (h2 : ¬ (n = tMin W ∧ d < 0 ∧ d % 2 = 1)) :
    construct W n d =
      .ok ⟨Int.sign d * (n / Int.gcd n d), Int.sign d * (d / Int.gcd n d)⟩ := by
  rw [construct_of_ne_zero W n hd0, reduce_eq hW hn hd hd0, if_neg h1, if_neg h2]

/-- The sign-normalised exact quotients are representable away from the clamps. -/
theorem normal_inT {W : Nat} (hW : 8 ≤ W) {n d : Int} (hn : InT W n) (hd : InT W d)
    (hd0 : d ≠ 0) (h1 : ¬ (d = tMin W ∧ n % 2 = 1))
    (h2 : ¬ (n = tMin W ∧ d < 0 ∧ d % 2 = 1)) :
    InT W (Int.sign d * (n / Int.gcd n d)) ∧ InT W (Int.sign d * (d / Int.gcd n d)) := by
  have hb := gcd_bounds hW (n := n) hd hd0
  have hg1 : (1 : Int) ≤ Int.gcd n d := by omega
  have hgn : (Int.gcd n d : Int) ∣ n := Int.gcd_dvd_left
  have hgd : (Int.gcd n d : Int) ∣ d := Int.gcd_dvd_right
  obtain ⟨hn', hd', -, -⟩ := reduced_pair hW hn hd hd0
  rcases lt_or_gt_of_ne hd0 with h | h
  · rw [Int.sign_eq_neg_one_of_neg h, neg_one_mul, neg_one_mul]
    have hnq : n / Int.gcd n d ≠ tMin W := by
      intro hq
      obtain ⟨hnmin, hone⟩ := quot_eq_tMin hg1 hgn hn hq
      refine h2 ⟨hnmin, h, (gcd_tMin_eq_one_iff hW d).mp ?_⟩
      rw [Int.gcd_comm, ← hnmin]
      exact_mod_cast hone
    have hdq : d / Int.gcd n d ≠ tMin W := by
      intro hq
      obtain ⟨hdmin, hone⟩ := quot_eq_tMin hg1 hgd hd hq
      refine h1 ⟨hdmin, (gcd_tMin_eq_one_iff hW n).mp ?_⟩
      rw [← hdmin]
      exact_mod_cast hone
    unfold InT tMin tMax at *
    constructor <;> constructor <;> omega
  · rw [Int.sign_eq_one_of_pos h, one_mul, one_mul]
    exact ⟨hn', hd'⟩

/-- Every value returned by `reduce` on representable fields has representable fields. -/
theorem reduce_result_inT {W : Nat} (hW : 8 ≤ W) {n d : Int} (hn : InT W n) (hd : InT W d)
    (hd0 : d ≠ 0) {r : Fraction} (h : reduce W ⟨n, d⟩ = .ok r) :
    InT W r.numerator_ ∧ InT W r.denominator_ := by
  obtain ⟨_, hP⟩ := two_pow_width hW
  have hev := even_tMin hW
  rw [reduce_eq hW hn hd hd0] at h
  have hmax : InT W (tMax W - 1) := by
    unfold InT tMin tMax
    constructor <;> omega
  by_cases h1 : d = tMin W ∧ n % 2 = 1
  · rw [if_pos h1] at h
    cases h
    refine ⟨?_, hmax⟩
    show InT W (-n)
    have : n ≠ tMin W := by
      intro hc
      rw [hc] at h1
      omega
    unfold InT tMin tMax at *
    constructor <;> omega
  · rw [if_neg h1] at h
    by_cases h2 : n = tMin W ∧ d < 0 ∧ d % 2 = 1
    · rw [if_pos h2] at h
      cases h
      refine ⟨hmax, ?_⟩
      show InT W (-d)
      have : d ≠ tMin W := by
        intro hc
        rw [hc] at h2
        omega
      unfold InT tMin tMax at *
      constructor <;> omega
    · rw [if_neg h2] at h
      cases h
      exact normal_inT hW hn hd hd0 h1 h2

/-- An already reduced pair with a positive denominator is stored as it is. -/
theorem construct_reduced {W : Nat} (hW : 8 ≤ W) {n d : Int} (hn : InT W n) (hd : InT W d)
    (hpos : 0 < d) (hcop : Int.gcd n d = 1) : construct W n d = .ok ⟨n, d⟩ := by
  have hdmin : d ≠ tMin W := by
    have hP : (0 : Int) < 2 ^ (W - 1) := by positivity
    unfold tMin
    omega
  rw [construct_normal hW hn hd (by omega) (fun h => hdmin h.1) (fun h => by omega), hcop,
    Int.sign_eq_one_of_pos hpos]
  simp

/-- The sign-normalised exact quotients denote the same rational number as `n / d`. -/
theorem sign_mul_quot_rat (n : Int) {d : Int} (hd0 : d ≠ 0) :
    ((Int.sign d * (n / Int.gcd n d) : Int) : ℚ) / ((Int.sign d * (d / Int.gcd n d) : Int) : ℚ)
      = (n : ℚ) / (d : ℚ) := by
  have hgpos : 0 < Int.gcd n d := Int.gcd_pos_of_ne_zero_right n hd0
  have hg0 : ((Int.gcd n d : Int) : ℚ) ≠ 0 := by
    have : (Int.gcd n d : Int) ≠ 0 := by omega
    exact_mod_cast this
  have hs0 : ((Int.sign d : Int) : ℚ) ≠ 0 := by
    have : Int.sign d ≠ 0 := fun h => hd0 (Int.sign_eq_zero_iff_zero.mp h)
    exact_mod_cast this
  have hn : (n : ℚ) = ((Int.gcd n d : Int) : ℚ) * ((n / Int.gcd n d : Int) : ℚ) := by
    exact_mod_cast (Int.mul_ediv_cancel' (Int.gcd_dvd_left (a := n) (b := d))).symm
  have hd : (d : ℚ) = ((Int.gcd n d : Int) : ℚ) * ((d / Int.gcd n d : Int) : ℚ) := by
    exact_mod_cast (Int.mul_ediv_cancel' (Int.gcd_dvd_right (a := n) (b := d))).symm
  rw [Int.cast_mul, Int.cast_mul, mul_div_mul_left _ _ hs0]
  conv_rhs => rw [hn, hd]
  rw [mul_div_mul_left _ _ hg0]

/-- A coprime pair with a positive denominator is determined by the rational number
it denotes. -/
theorem reduced_pair_unique {p q p' q' : Int} (hq : 0 < q) (hc : Int.gcd p q = 1)
    (hq' : 0 < q') (hc' : Int.gcd p' q' = 1) (h : (p : ℚ) / (q : ℚ) = (p' : ℚ) / (q' : ℚ)) :
    p = p' ∧ q = q' := by
  have h1 := Rat.num_div_eq_of_coprime hq hc
  have h2 := Rat.den_div_eq_of_coprime hq hc
  have h1' := Rat.num_div_eq_of_coprime hq' hc'
  have h2' := Rat.den_div_eq_of_coprime hq' hc'
  rw [h] at h1 h2
  exact ⟨h1.symm.trans h1', h2.symm.trans h2'⟩

/-- Away from the two single-field clamps the constructor returns the unique coprime
pair with a positive denominator that denotes `n / d`. -/
theorem construct_exact {W : Nat} (hW : 8 ≤ W) {n d : Int} (hn : InT W n) (hd : InT W d)
    (hd0 : d ≠ 0) (h1 : ¬ (d = tMin W ∧ n % 2 = 1))
    (h2 : ¬ (n = tMin W ∧ d < 0 ∧ d % 2 = 1)) :
    ∃ r, construct W n d = .ok r ∧
      r = ⟨Int.sign d * (n / Int.gcd n d), Int.sign d * (d / Int.gcd n d)⟩ ∧
      0 < r.denominator_ ∧
      Int.gcd r.numerator_ r.denominator_ = 1 ∧
      (r.numerator_ : ℚ) / (r.denominator_ : ℚ) = (n : ℚ) / (d : ℚ) ∧
      ∀ p q : Int, 0 < q → Int.gcd p q = 1 → (p : ℚ) / (q : ℚ) = (n : ℚ) / (d : ℚ) →
        p = r.numerator_ ∧ q = r.denominator_ := by
  have hb := gcd_bounds hW (n := n) hd hd0
  have hpos := sign_mul_quot_pos (by omega : (1 : Int) ≤ Int.gcd n d) Int.gcd_dvd_right hd0
  refine ⟨_, construct_normal hW hn hd hd0 h1 h2, rfl, hpos, sign_mul_quot_coprime n hd0,
    sign_mul_quot_rat n hd0, fun p q hq hc h => ?_⟩
  exact reduced_pair_unique hq hc hpos (sign_mul_quot_coprime n hd0)
    (h.trans (sign_mul_quot_rat n hd0).symm)

/-- The constructor on a positive denominator: no clamp can be taken. -/
theorem construct_exact_of_pos {W : Nat} (hW : 8 ≤ W) {n d : Int} (hn : InT W n)
    (hd : InT W d) (hpos : 0 < d) :
    ∃ r, construct W n d = .ok r ∧
      0 < r.denominator_ ∧
      Int.gcd r.numerator_ r.denominator_ = 1 ∧
      (r.numerator_ : ℚ) / (r.denominator_ : ℚ) = (n : ℚ) / (d : ℚ) ∧
      ∀ p q : Int, 0 < q → Int.gcd p q = 1 → (p : ℚ) / (q : ℚ) = (n : ℚ) / (d : ℚ) →
        p = r.numerator_ ∧ q = r.denominator_ := by
  have hdmin : d ≠ tMin W := by
    have hP : (0 : Int) < 2 ^ (W - 1) := by positivity
    unfold tMin
    omega
  obtain ⟨r, hr, -, h⟩ :=
    construct_exact hW hn hd (by omega) (fun h => hdmin h.1) (fun h => by omega)
  exact ⟨r, hr, h⟩

/-! ## The claims -/

/-- C1: construction fails exactly when the denominator is zero. For all representable
`n` and `d` (the bounds `T_MIN` and `T_MAX` included), `construct n d` raises the
invalid-argument error if `d = 0`, and returns a value if `d ≠ 0`; in particular the
divisions inside `reduce` are never undefined. -/
theorem construct_fails_iff_zero_denominator {W : Nat} (hW : 8 ≤ W) {n d : Int}
    (hn : InT W n) (hd : InT W d) :
    (d = 0 → construct W n d = .error .invalidArgument) ∧
    (d ≠ 0 → ∃ r, construct W n d = .ok r) ∧
    construct W n d ≠ .error .undefinedDivision := by
  refine ⟨fun h => ?_, fun h => ?_, ?_⟩
  · unfold construct
    rw [if_pos h]
  · obtain ⟨r, hr, -⟩ := reduce_den_pos hW hn hd h
    exact ⟨r, by rw [construct_of_ne_zero W n h, hr]⟩
  · by_cases h : d = 0
    · unfold construct
      rw [if_pos h]
      intro hc
      cases hc
    · obtain ⟨r, hr, -⟩ := reduce_den_pos hW hn hd h
      rw [construct_of_ne_zero W n h, hr]
      intro hc
      cases hc

/-- Witness for C1 on `long`: `construct(T_MIN, 0)` raises, `construct(T_MIN, T_MIN)`
returns. -/
theorem construct_fails_iff_zero_denominator_witness :
    construct 64 (tMin 64) 0 = .error .invalidArgument ∧
    ∃ r, construct 64 (tMin 64) (tMin 64) = .ok r :=
  ⟨(construct_fails_iff_zero_denominator (W := 64) (n := tMin 64) (d := 0) (by decide)
      (by decide) (by decide)).1 rfl,
    (construct_fails_iff_zero_denominator (W := 64) (n := tMin 64) (d := tMin 64) (by decide)
      (by decide) (by decide)).2.1 (by decide)⟩

/-- C2: invariant I3. For all representable `n` and `d ≠ 0` (the bound `T_MIN` included
for either), `construct n d` returns a value whose denominator is positive; and every
value returned by the binary operators `+`, `-`, `*`, `/` has a positive denominator,
because each of them returns through the constructor. -/
theorem denominator_positive {W : Nat} (hW : 8 ≤ W) :
    (∀ n d : Int, InT W n → InT W d → d ≠ 0 →
      ∃ r, construct W n d = .ok r ∧ 0 < r.denominator_) ∧
    (∀ a b r : Fraction, add W a b = .ok r → 0 < r.denominator_) ∧
    (∀ a b r : Fraction, sub W a b = .ok r → 0 < r.denominator_) ∧
    (∀ a b r : Fraction, mul W a b = .ok r → 0 < r.denominator_) ∧
    (∀ a b r : Fraction, div W a b = .ok r → 0 < r.denominator_) := by
  refine ⟨fun n d hn hd hd0 => ?_, fun a b r h => ?_, fun a b r h => ?_, fun a b r h => ?_,
    fun a b r h => ?_⟩
  · obtain ⟨r, hr, hpos⟩ := reduce_den_pos hW hn hd hd0
    exact ⟨r, by rw [construct_of_ne_zero W n hd0, hr], hpos⟩
  · exact construct_den_pos hW (wrap_inT hW _) (wrap_inT hW _) h
  · exact construct_den_pos hW (wrap_inT hW _) (wrap_inT hW _) h
  · exact construct_den_pos hW (wrap_inT hW _) (wrap_inT hW _) h
  · unfold div at h
    split_ifs at h
    exact construct_den_pos hW (wrap_inT hW _) (wrap_inT hW _) h

/-- Witness for C2 on `long`: `construct(823, T_MIN)` returns with a positive denominator. -/
theorem denominator_positive_witness :
    ∃ r, construct 64 823 (tMin 64) = .ok r ∧ 0 < r.denominator_ :=
  (denominator_positive (W := 64) (by decide)).1 823 (tMin 64) (by decide) (by decide)
    (by decide)

/-- C3 fails as stated: on `long`, `construct(3, T_MIN)` takes the denominator-only
clamp and returns `-3 / (T_MAX - 1)`, which is not the both-clamped state and whose
fields have the common divisor `3`. -/
theorem coprime_except_both_clamped_counterexample :
    construct 64 3 (tMin 64) = .ok ⟨-3, 9223372036854775806⟩ ∧
    (⟨-3, 9223372036854775806⟩ : Fraction) ≠ ⟨tMax 64 - 1, tMax 64 - 1⟩ ∧
    tMax 64 - 1 = 9223372036854775806 ∧
    Int.gcd (-3) 9223372036854775806 = 3 := by
  refine ⟨by rfl, by decide, by decide, by decide⟩

/-- C3, amended: for all representable `n` and `d ≠ 0`, `construct n d` succeeds, and its
result satisfies `gcd(|numerator|, |denominator|) = 1` unless a single-field clamp was
taken: `d = T_MIN` with `n` odd (the result is `-n / (T_MAX - 1)`), or `n = T_MIN` with
`d` negative and odd (the result is `(T_MAX - 1) / -d`). -/
theorem coprime_unless_single_clamp {W : Nat} (hW : 8 ≤ W) {n d : Int} (hn : InT W n)
    (hd : InT W d) (hd0 : d ≠ 0) :
    ∃ r, construct W n d = .ok r ∧
      (Int.gcd r.numerator_ r.denominator_ = 1 ∨
        (d = tMin W ∧ n % 2 = 1 ∧ r = ⟨-n, tMax W - 1⟩) ∨
        (n = tMin W ∧ d < 0 ∧ d % 2 = 1 ∧ r = ⟨tMax W - 1, -d⟩)) := by
  refine ⟨_, (construct_of_ne_zero W n hd0).trans (reduce_eq hW hn hd hd0), ?_⟩
  by_cases h1 : d = tMin W ∧ n % 2 = 1
  · rw [if_pos h1]
    exact Or.inr (Or.inl ⟨h1.1, h1.2, rfl⟩)
  · rw [if_neg h1]
    by_cases h2 : n = tMin W ∧ d < 0 ∧ d % 2 = 1
    · rw [if_pos h2]
      exact Or.inr (Or.inr ⟨h2.1, h2.2.1, h2.2.2, rfl⟩)
    · rw [if_neg h2]
      exact Or.inl (sign_mul_quot_coprime n hd0)

/-- Witness for the amended C3 on `long`, at `construct(T_MIN, T_MIN)`. -/
theorem coprime_unless_single_clamp_witness :
    ∃ r, construct 64 (tMin 64) (tMin 64) = .ok r ∧
      (Int.gcd r.numerator_ r.denominator_ = 1 ∨
        (tMin 64 = tMin 64 ∧ tMin 64 % 2 = 1 ∧ r = ⟨-tMin 64, tMax 64 - 1⟩) ∨
        (tMin 64 = tMin 64 ∧ tMin 64 < 0 ∧ tMin 64 % 2 = 1 ∧ r = ⟨tMax 64 - 1, -tMin 64⟩)) :=
  coprime_unless_single_clamp (W := 64) (n := tMin 64) (d := tMin 64) (by decide) (by decide)
    (by decide) (by decide)

/-- C4: reduction and sign normalisation away from the `T_MIN` boundary. For all
representable `n ≠ T_MIN` and `d ≠ T_MIN` with `d ≠ 0`, and `g = gcd(|n|, |d|)`,
`construct n d` has numerator `sign(d) * n / g` and denominator `|d| / g`; the result is
coprime, has a positive denominator and denotes the same rational number as `n / d`. -/
theorem construct_away_from_tMin {W : Nat} (hW : 8 ≤ W) {n d : Int} (hn : InT W n)
    (hd : InT W d) (hnmin : n ≠ tMin W) (hdmin : d ≠ tMin W) (hd0 : d ≠ 0) :
    ∃ r, construct W n d = .ok r ∧
      r.numerator_ = Int.sign d * n / Int.gcd n d ∧
      r.denominator_ = |d| / Int.gcd n d ∧
      Int.gcd r.numerator_ r.denominator_ = 1 ∧
      0 < r.denominator_ ∧
      (r.numerator_ : ℚ) / (r.denominator_ : ℚ) = (n : ℚ) / (d : ℚ) := by
  have hb := gcd_bounds hW (n := n) hd hd0
  have hgn : (Int.gcd n d : Int) ∣ n := Int.gcd_dvd_left
  have hgd : (Int.gcd n d : Int) ∣ d := Int.gcd_dvd_right
  refine ⟨_, construct_normal hW hn hd hd0 (fun h => hdmin h.1) (fun h => hnmin h.1),
    (Int.mul_ediv_assoc _ hgn).symm, ?_, sign_mul_quot_coprime n hd0,
    sign_mul_quot_pos (by omega) hgd hd0, sign_mul_quot_rat n hd0⟩
  show Int.sign d * (d / Int.gcd n d) = |d| / Int.gcd n d
  rcases lt_or_gt_of_ne hd0 with h | h
  · rw [Int.sign_eq_neg_one_of_neg h, abs_of_neg h, neg_one_mul, Int.neg_ediv_of_dvd hgd]
  · rw [Int.sign_eq_one_of_pos h, abs_of_pos h, one_mul]

/-- Witness for C4 on `long`: the two reductions of the test suite,
`construct(121, 11) = 11/1` and `construct(11, -121) = -1/11`. -/
theorem construct_away_from_tMin_witness :
    (∃ r, construct 64 11 (-121) = .ok r ∧
      r.numerator_ = Int.sign (-121) * 11 / Int.gcd 11 (-121) ∧
      r.denominator_ = |(-121 : Int)| / Int.gcd 11 (-121) ∧
      Int.gcd r.numerator_ r.denominator_ = 1 ∧
      0 < r.denominator_ ∧
      (r.numerator_ : ℚ) / (r.denominator_ : ℚ) = ((11 : Int) : ℚ) / ((-121 : Int) : ℚ)) ∧
    construct 64 121 11 = .ok ⟨11, 1⟩ ∧ construct 64 11 (-121) = .ok ⟨-1, 11⟩ :=
  ⟨construct_away_from_tMin (W := 64) (n := 11) (d := -121) (by decide) (by decide)
    (by decide) (by decide) (by decide) (by decide), by rfl, by rfl⟩

/-- C5 fails as stated: on `long`, `construct(3, T_MIN)` returns the clamped pair
`-3 / (T_MAX - 1)`, and constructing again from these two fields divides out the
common factor `3` and returns a different pair. -/
theorem reduce_idempotent_counterexample :
    construct 64 3 (tMin 64) = .ok ⟨-3, 9223372036854775806⟩ ∧
    construct 64 (-3) 9223372036854775806 = .ok ⟨-1, 3074457345618258602⟩ ∧
    (⟨-1, 3074457345618258602⟩ : Fraction) ≠ ⟨-3, 9223372036854775806⟩ := by
  refine ⟨by rfl, by rfl, by decide⟩

/-- C5, amended: for all representable `n` and `d ≠ 0`, `r = construct n d` succeeds, and
`construct r.numerator r.denominator` returns exactly `r` whenever the fields of `r` are
coprime; this is the case whenever no single-field clamp was taken, that is unless
`d = T_MIN` with `n` odd, or `n = T_MIN` with `d` negative and odd. -/
theorem reduce_idempotent_unless_clamped {W : Nat} (hW : 8 ≤ W) {n d : Int} (hn : InT W n)
    (hd : InT W d) (hd0 : d ≠ 0) :
    ∃ r, construct W n d = .ok r ∧
      (Int.gcd r.numerator_ r.denominator_ = 1 →
        construct W r.numerator_ r.denominator_ = .ok r) ∧
      (¬ (d = tMin W ∧ n % 2 = 1) → ¬ (n = tMin W ∧ d < 0 ∧ d % 2 = 1) →
        construct W r.numerator_ r.denominator_ = .ok r) := by
  obtain ⟨r, hr, hpos⟩ := reduce_den_pos hW hn hd hd0
  obtain ⟨hrn, hrd⟩ := reduce_result_inT hW hn hd hd0 hr
  have hcr : construct W n d = .ok r := by rw [construct_of_ne_zero W n hd0, hr]
  refine ⟨r, hcr, fun hcop => construct_reduced hW hrn hrd hpos hcop, fun h1 h2 => ?_⟩
  apply construct_reduced hW hrn hrd hpos
  rw [construct_normal hW hn hd hd0 h1 h2] at hcr
  cases hcr
  exact sign_mul_quot_coprime n hd0

/-- Witness for the amended C5 on `long`, at `construct(11, -121)`. -/
theorem reduce_idempotent_unless_clamped_witness :
    ∃ r, construct 64 11 (-121) = .ok r ∧
      (Int.gcd r.numerator_ r.denominator_ = 1 →
        construct 64 r.numerator_ r.denominator_ = .ok r) ∧
      (¬ ((-121 : Int) = tMin 64 ∧ (11 : Int) % 2 = 1) →
        ¬ ((11 : Int) = tMin 64 ∧ (-121 : Int) < 0 ∧ (-121 : Int) % 2 = 1) →
        construct 64 r.numerator_ r.denominator_ = .ok r) :=
  reduce_idempotent_unless_clamped (W := 64) (n := 11) (d := -121) (by decide) (by decide)
    (by decide) (by decide)

/-- C6: already reduced inputs are stored unchanged. For every representable `n` (the
bounds `T_MIN` and `T_MAX` included) and every representable `d > 0` with
`gcd(|n|, d) = 1`, `construct n d` returns a value whose `getNumerator` is `n` and whose
`getDenominator` is `d`. -/
theorem reduced_input_stored_unchanged {W : Nat} (hW : 8 ≤ W) {n d : Int} (hn : InT W n)
    (hd : InT W d) (hpos : 0 < d) (hcop : Int.gcd n d = 1) :
    ∃ r, construct W n d = .ok r ∧ getNumerator r = n ∧ getDenominator r = d :=
  ⟨⟨n, d⟩, construct_reduced hW hn hd hpos hcop, rfl, rfl⟩

/-- Witness for C6 on `long`: the pairs `(T_MAX, 823)`, `(T_MIN, 823)`, `(823, T_MAX)`
and `(823, 3)` of the test suite. -/
theorem reduced_input_stored_unchanged_witness :
    (∃ r, construct 64 (tMax 64) 823 = .ok r ∧ getNumerator r = tMax 64 ∧
      getDenominator r = 823) ∧
    (∃ r, construct 64 (tMin 64) 823 = .ok r ∧ getNumerator r = tMin 64 ∧
      getDenominator r = 823) ∧
    (∃ r, construct 64 823 (tMax 64) = .ok r ∧ getNumerator r = 823 ∧
      getDenominator r = tMax 64) ∧
    (∃ r, construct 64 823 3 = .ok r ∧ getNumerator r = 823 ∧ getDenominator r = 3) :=
  ⟨reduced_input_stored_unchanged (W := 64) (n := tMax 64) (d := 823) (by decide) (by decide)
      (by decide) (by decide) (by decide),
    reduced_input_stored_unchanged (W := 64) (n := tMin 64) (d := 823) (by decide) (by decide)
      (by decide) (by decide) (by decide),
    reduced_input_stored_unchanged (W := 64) (n := 823) (d := tMax 64) (by decide) (by decide)
      (by decide) (by decide) (by decide),
    reduced_input_stored_unchanged (W := 64) (n := 823) (d := 3) (by decide) (by decide)
      (by decide) (by decide) (by decide)⟩

/-- C7: addition. For all `a/b` and `c/d` with `b > 0` and `d > 0` whose products
`a*d`, `b*c`, `b*d` and whose sum `a*d + b*c` are representable, `(a/b) + (c/d)` returns
a value, and that value is the unique coprime pair with a positive denominator denoting
the rational number `(a*d + b*c) / (b*d)`. -/
theorem add_correct {W : Nat} (hW : 8 ≤ W) {a b c d : Int} (hb : 0 < b) (hd : 0 < d)
    (had : InT W (a * d)) (hbc : InT W (b * c)) (hbd : InT W (b * d))
    (hsum : InT W (a * d + b * c)) :
    ∃ r, add W ⟨a, b⟩ ⟨c, d⟩ = .ok r ∧
      0 < r.denominator_ ∧
      Int.gcd r.numerator_ r.denominator_ = 1 ∧
      (r.numerator_ : ℚ) / (r.denominator_ : ℚ) =
        ((a : ℚ) * (d : ℚ) + (b : ℚ) * (c : ℚ)) / ((b : ℚ) * (d : ℚ)) ∧
      ∀ p q : Int, 0 < q → Int.gcd p q = 1 →
        (p : ℚ) / (q : ℚ) = ((a : ℚ) * (d : ℚ) + (b : ℚ) * (c : ℚ)) / ((b : ℚ) * (d : ℚ)) →
        p = r.numerator_ ∧ q = r.denominator_ := by
  obtain ⟨r, hr, hpos, hcop, hval, huniq⟩ := construct_exact_of_pos hW hsum hbd (mul_pos hb hd)
  have hop : add W ⟨a, b⟩ ⟨c, d⟩ = construct W (a * d + b * c) (b * d) := by
    simp only [add, addT, mulT, wrap_of_inT hW had, wrap_of_inT hW hbc, wrap_of_inT hW hbd,
      wrap_of_inT hW hsum]
  push_cast at hval huniq
  exact ⟨r, hop.trans hr, hpos, hcop, hval, huniq⟩

/-- Witness for C7 on `long`: `1/2 + (-2)/3`, with the two sums of the test suite,
`1/2 + 1/3 = 5/6` and `1/2 + 2/(-3) = -1/6`. -/
theorem add_correct_witness :
    (∃ r, add 64 ⟨1, 2⟩ ⟨-2, 3⟩ = .ok r ∧
      0 < r.denominator_ ∧
      Int.gcd r.numerator_ r.denominator_ = 1 ∧
      (r.numerator_ : ℚ) / (r.denominator_ : ℚ) =
        (((1 : Int) : ℚ) * ((3 : Int) : ℚ) + ((2 : Int) : ℚ) * ((-2 : Int) : ℚ)) /
          (((2 : Int) : ℚ) * ((3 : Int) : ℚ)) ∧
      ∀ p q : Int, 0 < q → Int.gcd p q = 1 →
        (p : ℚ) / (q : ℚ) =
          (((1 : Int) : ℚ) * ((3 : Int) : ℚ) + ((2 : Int) : ℚ) * ((-2 : Int) : ℚ)) /
            (((2 : Int) : ℚ) * ((3 : Int) : ℚ)) →
        p = r.numerator_ ∧ q = r.denominator_) ∧
    add 64 ⟨1, 2⟩ ⟨1, 3⟩ = .ok ⟨5, 6⟩ ∧
    construct 64 2 (-3) = .ok ⟨-2, 3⟩ ∧
    add 64 ⟨1, 2⟩ ⟨-2, 3⟩ = .ok ⟨-1, 6⟩ :=
  ⟨add_correct (W := 64) (a := 1) (b := 2) (c := -2) (d := 3) (by decide) (by decide)
    (by decide) (by decide) (by decide) (by decide) (by decide), by rfl, by rfl, by rfl⟩

/-- C8: subtraction. For all `a/b` and `c/d` with `b > 0` and `d > 0` whose products
`a*d`, `b*c`, `b*d` and whose difference `a*d - b*c` are representable, `(a/b) - (c/d)`
returns a value, and that value is the unique coprime pair with a positive denominator
denoting the rational number `(a*d - b*c) / (b*d)`. -/
theorem sub_correct {W : Nat} (hW : 8 ≤ W) {a b c d : Int} (hb : 0 < b) (hd : 0 < d)
    (had : InT W (a * d)) (hbc : InT W (b * c)) (hbd : InT W (b * d))
    (hdiff : InT W (a * d - b * c)) :
    ∃ r, sub W ⟨a, b⟩ ⟨c, d⟩ = .ok r ∧
      0 < r.denominator_ ∧
      Int.gcd r.numerator_ r.denominator_ = 1 ∧
      (r.numerator_ : ℚ) / (r.denominator_ : ℚ) =
        ((a : ℚ) * (d : ℚ) - (b : ℚ) * (c : ℚ)) / ((b : ℚ) * (d : ℚ)) ∧
      ∀ p q : Int, 0 < q → Int.gcd p q = 1 →
        (p : ℚ) / (q : ℚ) = ((a : ℚ) * (d : ℚ) - (b : ℚ) * (c : ℚ)) / ((b : ℚ) * (d : ℚ)) →
        p = r.numerator_ ∧ q = r.denominator_ := by
  obtain ⟨r, hr, hpos, hcop, hval, huniq⟩ := construct_exact_of_pos hW hdiff hbd (mul_pos hb hd)
  have hop : sub W ⟨a, b⟩ ⟨c, d⟩ = construct W (a * d - b * c) (b * d) := by
    simp only [sub, subT, mulT, wrap_of_inT hW had, wrap_of_inT hW hbc, wrap_of_inT hW hbd,
      wrap_of_inT hW hdiff]
  push_cast at hval huniq
  exact ⟨r, hop.trans hr, hpos, hcop, hval, huniq⟩

/-- Witness for C8 on `long`: `1/2 - (-2)/3`, with the two differences of the test
suite, `1/2 - 1/3 = 1/6` and `1/2 - 2/(-3) = 7/6`. -/
theorem sub_correct_witness :
    (∃ r, sub 64 ⟨1, 2⟩ ⟨-2, 3⟩ = .ok r ∧
      0 < r.denominator_ ∧
      Int.gcd r.numerator_ r.denominator_ = 1 ∧
      (r.numerator_ : ℚ) / (r.denominator_ : ℚ) =
        (((1 : Int) : ℚ) * ((3 : Int) : ℚ) - ((2 : Int) : ℚ) * ((-2 : Int) : ℚ)) /
          (((2 : Int) : ℚ) * ((3 : Int) : ℚ)) ∧
      ∀ p q : Int, 0 < q → Int.gcd p q = 1 →
        (p : ℚ) / (q : ℚ) =
          (((1 : Int) : ℚ) * ((3 : Int) : ℚ) - ((2 : Int) : ℚ) * ((-2 : Int) : ℚ)) /
            (((2 : Int) : ℚ) * ((3 : Int) : ℚ)) →
        p = r.numerator_ ∧ q = r.denominator_) ∧
    sub 64 ⟨1, 2⟩ ⟨1, 3⟩ = .ok ⟨1, 6⟩ ∧
    sub 64 ⟨1, 2⟩ ⟨-2, 3⟩ = .ok ⟨7, 6⟩ :=
  ⟨sub_correct (W := 64) (a := 1) (b := 2) (c := -2) (d := 3) (by decide) (by decide)
    (by decide) (by decide) (by decide) (by decide) (by decide), by rfl, by rfl⟩

/-- C9: multiplication. For all `a/b` and `c/d` with `b > 0` and `d > 0` whose products
`a*c` and `b*d` are representable, `(a/b) * (c/d)` returns a value, and that value is the
unique coprime pair with a positive denominator denoting the rational number
`(a*c) / (b*d)`. -/
theorem mul_correct {W : Nat} (hW : 8 ≤ W) {a b c d : Int} (hb : 0 < b) (hd : 0 < d)
    (hac : InT W (a * c)) (hbd : InT W (b * d)) :
    ∃ r, mul W ⟨a, b⟩ ⟨c, d⟩ = .ok r ∧
      0 < r.denominator_ ∧
      Int.gcd r.numerator_ r.denominator_ = 1 ∧
      (r.numerator_ : ℚ) / (r.denominator_ : ℚ) =
        ((a : ℚ) * (c : ℚ)) / ((b : ℚ) * (d : ℚ)) ∧
      ∀ p q : Int, 0 < q → Int.gcd p q = 1 →
        (p : ℚ) / (q : ℚ) = ((a : ℚ) * (c : ℚ)) / ((b : ℚ) * (d : ℚ)) →
        p = r.numerator_ ∧ q = r.denominator_ := by
  obtain ⟨r, hr, hpos, hcop, hval, huniq⟩ := construct_exact_of_pos hW hac hbd (mul_pos hb hd)
  have hop : mul W ⟨a, b⟩ ⟨c, d⟩ = construct W (a * c) (b * d) := by
    simp only [mul, mulT, wrap_of_inT hW hac, wrap_of_inT hW hbd]
  push_cast at hval huniq
  exact ⟨r, hop.trans hr, hpos, hcop, hval, huniq⟩

/-- Witness for C9 on `long`: `1/2 * (-2)/3`, with the two products of the test suite,
`1/2 * 1/3 = 1/6` and `1/2 * 2/(-3) = -1/3`. -/
theorem mul_correct_witness :
    (∃ r, mul 64 ⟨1, 2⟩ ⟨-2, 3⟩ = .ok r ∧
      0 < r.denominator_ ∧
      Int.gcd r.numerator_ r.denominator_ = 1 ∧
      (r.numerator_ : ℚ) / (r.denominator_ : ℚ) =
        (((1 : Int) : ℚ) * ((-2 : Int) : ℚ)) / (((2 : Int) : ℚ) * ((3 : Int) : ℚ)) ∧
      ∀ p q : Int, 0 < q → Int.gcd p q = 1 →
        (p : ℚ) / (q : ℚ) =
          (((1 : Int) : ℚ) * ((-2 : Int) : ℚ)) / (((2 : Int) : ℚ) * ((3 : Int) : ℚ)) →
        p = r.numerator_ ∧ q = r.denominator_) ∧
    mul 64 ⟨1, 2⟩ ⟨1, 3⟩ = .ok ⟨1, 6⟩ ∧
    mul 64 ⟨1, 2⟩ ⟨-2, 3⟩ = .ok ⟨-1, 3⟩ :=
  ⟨mul_correct (W := 64) (a := 1) (b := 2) (c := -2) (d := 3) (by decide) (by decide)
    (by decide) (by decide) (by decide), by rfl, by rfl⟩

/-- C10: division. For all `a/b` and `c/d` with `b > 0`, `d > 0` and `c ≠ 0` whose
products `a*d` and `b*c` are representable and different from `T_MIN`, `(a/b) / (c/d)`
returns a value, and that value is the unique coprime pair with a positive denominator
denoting the rational number `(a*d) / (b*c)`; when `c < 0` its fields are the negated
quotients `-(a*d) / g` and `-(b*c) / g` by `g = gcd(|a*d|, |b*c|)`. -/
theorem div_correct {W : Nat} (hW : 8 ≤ W) {a b c d : Int} (hb : 0 < b) (_hd : 0 < d)
    (hc : c ≠ 0) (had : InT W (a * d)) (hbc : InT W (b * c)) (hadmin : a * d ≠ tMin W)
    (hbcmin : b * c ≠ tMin W) :
    ∃ r, div W ⟨a, b⟩ ⟨c, d⟩ = .ok r ∧
      0 < r.denominator_ ∧
      Int.gcd r.numerator_ r.denominator_ = 1 ∧
      (r.numerator_ : ℚ) / (r.denominator_ : ℚ) =
        ((a : ℚ) * (d : ℚ)) / ((b : ℚ) * (c : ℚ)) ∧
      (∀ p q : Int, 0 < q → Int.gcd p q = 1 →
        (p : ℚ) / (q : ℚ) = ((a : ℚ) * (d : ℚ)) / ((b : ℚ) * (c : ℚ)) →
        p = r.numerator_ ∧ q = r.denominator_) ∧
      (c < 0 → r.numerator_ = -(a * d) / Int.gcd (a * d) (b * c) ∧
        r.denominator_ = -(b * c) / Int.gcd (a * d) (b * c)) := by
  have hbc0 : b * c ≠ 0 := mul_ne_zero (by omega) hc
  obtain ⟨r, hr, hform, hpos, hcop, hval, huniq⟩ :=
    construct_exact hW had hbc hbc0 (fun h => hbcmin h.1) (fun h => hadmin h.1)
  have hop : div W ⟨a, b⟩ ⟨c, d⟩ = construct W (a * d) (b * c) := by
    simp only [div, mulT, wrap_of_inT hW had, wrap_of_inT hW hbc, if_neg hc]
  push_cast at hval huniq
  refine ⟨r, hop.trans hr, hpos, hcop, hval, huniq, fun hneg => ?_⟩
  have hlt : b * c < 0 := mul_neg_of_pos_of_neg hb hneg
  rw [hform, Int.sign_eq_neg_one_of_neg hlt, neg_one_mul, neg_one_mul,
    Int.neg_ediv_of_dvd Int.gcd_dvd_left, Int.neg_ediv_of_dvd Int.gcd_dvd_right]
  exact ⟨rfl, rfl⟩

/-- Witness for C10 on `long`: `1/2 / ((-2)/3)`, with the two quotients of the test
suite, `1/2 / 1/3 = 3/2` and `1/2 / (2/(-3)) = -3/4`. -/
theorem div_correct_witness :
    (∃ r, div 64 ⟨1, 2⟩ ⟨-2, 3⟩ = .ok r ∧
      0 < r.denominator_ ∧
      Int.gcd r.numerator_ r.denominator_ = 1 ∧
      (r.numerator_ : ℚ) / (r.denominator_ : ℚ) =
        (((1 : Int) : ℚ) * ((3 : Int) : ℚ)) / (((2 : Int) : ℚ) * ((-2 : Int) : ℚ)) ∧
      (∀ p q : Int, 0 < q → Int.gcd p q = 1 →
        (p : ℚ) / (q : ℚ) =
          (((1 : Int) : ℚ) * ((3 : Int) : ℚ)) / (((2 : Int) : ℚ) * ((-2 : Int) : ℚ)) →
        p = r.numerator_ ∧ q = r.denominator_) ∧
      ((-2 : Int) < 0 → r.numerator_ = -(1 * 3) / Int.gcd (1 * 3) (2 * -2) ∧
        r.denominator_ = -(2 * -2) / Int.gcd (1 * 3) (2 * -2))) ∧
    div 64 ⟨1, 2⟩ ⟨1, 3⟩ = .ok ⟨3, 2⟩ ∧
    div 64 ⟨1, 2⟩ ⟨-2, 3⟩ = .ok ⟨-3, 4⟩ :=
  ⟨div_correct (W := 64) (a := 1) (b := 2) (c := -2) (d := 3) (by decide) (by decide)
    (by decide) (by decide) (by decide) (by decide) (by decide) (by decide), by rfl, by rfl⟩

/-! ## Scalars, division by zero and the compound operators -/

theorem inT_zero {W : Nat} (hW : 8 ≤ W) : InT W 0 := by
  obtain ⟨_, hP⟩ := two_pow_width hW
  unfold InT tMin tMax
  constructor <;> omega

theorem inT_one {W : Nat} (hW : 8 ≤ W) : InT W 1 := by
  obtain ⟨_, hP⟩ := two_pow_width hW
  unfold InT tMin tMax
  constructor <;> omega

/-- The promotion of a representable scalar `k` returns the pair `k / 1`. -/
theorem ofScalar_eq {W : Nat} (hW : 8 ≤ W) {k : Int} (hk : InT W k) :
    ofScalar W k = .ok ⟨k, 1⟩ :=
  construct_reduced hW hk (inT_one hW) (by omega) Int.gcd_one

/-- A zero numerator is stored as `0 / 1`, whatever the non-zero denominator. -/
theorem construct_zero {W : Nat} (hW : 8 ≤ W) {d : Int} (hd : InT W d) (hd0 : d ≠ 0) :
    construct W 0 d = .ok ⟨0, 1⟩ := by
  obtain ⟨_, hP⟩ := two_pow_width hW
  have h2 : ¬ ((0 : Int) = tMin W ∧ d < 0 ∧ d % 2 = 1) := by
    rintro ⟨h, -⟩
    unfold tMin at h
    omega
  rw [construct_normal hW (inT_zero hW) hd hd0 (by rintro ⟨-, h⟩; omega) h2, Int.gcd_zero_left]
  have habs : ((d.natAbs : Nat) : Int) = |d| := Int.natCast_natAbs d
  rw [habs, Int.zero_ediv, mul_zero]
  congr 1
  rcases lt_or_gt_of_ne hd0 with h | h
  · rw [Int.sign_eq_neg_one_of_neg h, abs_of_neg h, Int.ediv_neg, Int.ediv_self hd0]
    rfl
  · rw [Int.sign_eq_one_of_pos h, abs_of_pos h, Int.ediv_self hd0]
    rfl

/-- The operator `/` raises as soon as the numerator of its right operand is `0`. -/
theorem div_zero_numerator (W : Nat) (a : Fraction) {z : Fraction} (hz : z.numerator_ = 0) :
    div W a z = .error .invalidArgument := by
  unfold div
  rw [if_pos hz]

/-- Division of a fraction by the scalar `0` raises. -/
theorem divScalar_zero {W : Nat} (hW : 8 ≤ W) (a : Fraction) :
    divScalar W a 0 = .error .invalidArgument := by
  unfold divScalar
  rw [ofScalar_eq hW (inT_zero hW)]
  exact div_zero_numerator W a rfl

/-! ## The claims on division by zero -/

/-- C11: division by zero. For every `a` and every `z` whose numerator is `0`, `a / z`
raises the error of the division guard, and such a `z` is what `construct 0 d` returns
for every representable `d ≠ 0`; likewise `a / k` for the scalar `k = 0`, and `k / z`
for every representable scalar `k`. -/
theorem division_by_zero_raises {W : Nat} (hW : 8 ≤ W) :
    (∀ a z : Fraction, z.numerator_ = 0 → div W a z = .error .invalidArgument) ∧
    (∀ (a : Fraction) (d : Int), InT W d → d ≠ 0 →
      ∃ z, construct W 0 d = .ok z ∧ z.numerator_ = 0 ∧
        div W a z = .error .invalidArgument) ∧
    (∀ a : Fraction, divScalar W a 0 = .error .invalidArgument) ∧
    (∀ (k : Int) (z : Fraction), InT W k → z.numerator_ = 0 →
      scalarDiv W k z = .error .invalidArgument) := by
  refine ⟨fun a z hz => div_zero_numerator W a hz, fun a d hd hd0 => ?_,
    fun a => divScalar_zero hW a, fun k z hk hz => ?_⟩
  · exact ⟨⟨0, 1⟩, construct_zero hW hd hd0, rfl, div_zero_numerator W a rfl⟩
  · unfold scalarDiv
    rw [ofScalar_eq hW hk]
    exact div_zero_numerator W _ hz

/-- Witness for C11 on `long`: `(1/2) / (0/5)` raises, and so do `(1/2) / 0` and
`7 / (0/5)`. -/
theorem division_by_zero_raises_witness :
    (∃ z, construct 64 0 5 = .ok z ∧ z.numerator_ = 0 ∧
      div 64 ⟨1, 2⟩ z = .error .invalidArgument) ∧
    divScalar 64 ⟨1, 2⟩ 0 = .error .invalidArgument ∧
    scalarDiv 64 7 ⟨0, 1⟩ = .error .invalidArgument :=
  ⟨(division_by_zero_raises (W := 64) (by decide)).2.1 ⟨1, 2⟩ 5 (by decide) (by decide),
    (division_by_zero_raises (W := 64) (by decide)).2.2.1 ⟨1, 2⟩,
    (division_by_zero_raises (W := 64) (by decide)).2.2.2 7 ⟨0, 1⟩ (by decide) rfl⟩

/-- C12: strong exception safety of compound division. For every receiver `a`, `a /= z`
with a right operand `z` whose numerator is `0`, and `a /= 0` with the scalar `0`, raise
the error of the division guard and leave both fields of `a` as they were. -/
theorem compound_division_by_zero_keeps_receiver {W : Nat} (hW : 8 ≤ W) :
    (∀ a z : Fraction, z.numerator_ = 0 → divAssign W a z = (.error .invalidArgument, a)) ∧
    (∀ a : Fraction, divAssignScalar W a 0 = (.error .invalidArgument, a)) := by
  refine ⟨fun a z hz => ?_, fun a => ?_⟩
  · unfold divAssign
    rw [if_pos hz]
  · have h := divScalar_zero hW a
    unfold divScalar at h
    unfold divAssignScalar
    rw [h]
    rfl

/-- Witness for C12 on `long`: `-3/4 /= 0/1` and `-3/4 /= 0` raise and keep `-3/4`. -/
theorem compound_division_by_zero_keeps_receiver_witness :
    divAssign 64 ⟨-3, 4⟩ ⟨0, 1⟩ = (.error .invalidArgument, ⟨-3, 4⟩) ∧
    divAssignScalar 64 ⟨-3, 4⟩ 0 = (.error .invalidArgument, ⟨-3, 4⟩) :=
  ⟨(compound_division_by_zero_keeps_receiver (W := 64) (by decide)).1 ⟨-3, 4⟩ ⟨0, 1⟩ rfl,
    (compound_division_by_zero_keeps_receiver (W := 64) (by decide)).2 ⟨-3, 4⟩⟩

/-! ## Which operations can fail -/

/-- On representable arguments the constructor raises for a zero denominator and
returns a value for every other one. -/
theorem construct_total {W : Nat} (hW : 8 ≤ W) {n d : Int} (hn : InT W n) (hd : InT W d) :
    (d = 0 → construct W n d = .error .invalidArgument) ∧
    (d ≠ 0 → ∃ r, construct W n d = .ok r) := by
  refine ⟨fun h => ?_, fun h => ?_⟩
  · unfold construct
    rw [if_pos h]
  · obtain ⟨r, hr, -⟩ := reduce_den_pos hW hn hd h
    exact ⟨r, by rw [construct_of_ne_zero W n h, hr]⟩

theorem mulT_comm (W : Nat) (x y : Int) : mulT W x y = mulT W y x := by
  unfold mulT
  rw [mul_comm]

/-- What the constructor returns is what `reduce` returns on the same two fields. -/
theorem reduce_of_construct_ok {W : Nat} {n d : Int} {r : Fraction}
    (h : construct W n d = .ok r) : reduce W ⟨n, d⟩ = .ok r := by
  unfold construct at h
  split_ifs at h
  exact h

/-- C13 fails as stated: on `long`, `1/4294967296` and `4294967296/1` are values returned
by the constructor, the fixed-width product `4294967296 * 4294967296` is `0`, and the
constructor call inside `+`, `-`, `*` and `/` raises, for `/` with a right operand whose
numerator is not `0`. -/
theorem binary_operators_never_raise_counterexample :
    construct 64 1 4294967296 = .ok ⟨1, 4294967296⟩ ∧
    construct 64 4294967296 1 = .ok ⟨4294967296, 1⟩ ∧
    add 64 ⟨1, 4294967296⟩ ⟨1, 4294967296⟩ = .error .invalidArgument ∧
    sub 64 ⟨1, 4294967296⟩ ⟨1, 4294967296⟩ = .error .invalidArgument ∧
    mul 64 ⟨1, 4294967296⟩ ⟨1, 4294967296⟩ = .error .invalidArgument ∧
    (⟨4294967296, 1⟩ : Fraction).numerator_ ≠ 0 ∧
    div 64 ⟨1, 4294967296⟩ ⟨4294967296, 1⟩ = .error .invalidArgument := by
  refine ⟨by rfl, by rfl, by rfl, by rfl, by rfl, by decide, by rfl⟩

/-- C13, amended: with the fixed-width multiplication of the host, `a + b`, `a - b` and
`a * b` raise the invalid-argument error of the constructor when the fixed-width product
of the two denominators is `0`, and return a value otherwise; `a / b` raises when the
numerator of `b` is `0` or the fixed-width product of the denominator of `a` and the
numerator of `b` is `0`, and returns a value otherwise. -/
theorem binary_operators_raise_iff {W : Nat} (hW : 8 ≤ W) (a b : Fraction) :
    (mulT W a.denominator_ b.denominator_ = 0 →
      add W a b = .error .invalidArgument ∧ sub W a b = .error .invalidArgument ∧
        mul W a b = .error .invalidArgument) ∧
    (mulT W a.denominator_ b.denominator_ ≠ 0 →
      (∃ r, add W a b = .ok r) ∧ (∃ r, sub W a b = .ok r) ∧ (∃ r, mul W a b = .ok r)) ∧
    (b.numerator_ = 0 ∨ mulT W a.denominator_ b.numerator_ = 0 →
      div W a b = .error .invalidArgument) ∧
    (b.numerator_ ≠ 0 → mulT W a.denominator_ b.numerator_ ≠ 0 →
      ∃ r, div W a b = .ok r) := by
  refine ⟨fun h => ⟨?_, ?_, ?_⟩, fun h => ⟨?_, ?_, ?_⟩, fun h => ?_, fun h1 h2 => ?_⟩
  · exact (construct_total hW (wrap_inT hW _) (wrap_inT hW _)).1 h
  · exact (construct_total hW (wrap_inT hW _) (wrap_inT hW _)).1 h
  · exact (construct_total hW (wrap_inT hW _) (wrap_inT hW _)).1 h
  · exact (construct_total hW (wrap_inT hW _) (wrap_inT hW _)).2 h
  · exact (construct_total hW (wrap_inT hW _) (wrap_inT hW _)).2 h
  · exact (construct_total hW (wrap_inT hW _) (wrap_inT hW _)).2 h
  · rcases h with h | h
    · exact div_zero_numerator W a h
    · unfold div
      split_ifs
      · rfl
      · exact (construct_total hW (wrap_inT hW _) (wrap_inT hW _)).1 h
  · unfold div
    rw [if_neg h1]
    exact (construct_total hW (wrap_inT hW _) (wrap_inT hW _)).2 h2

/-- Witness for the amended C13 on `long`, at `1/2` and `1/3`: all four operators
return. -/
theorem binary_operators_raise_iff_witness :
    ((∃ r, add 64 ⟨1, 2⟩ ⟨1, 3⟩ = .ok r) ∧ (∃ r, sub 64 ⟨1, 2⟩ ⟨1, 3⟩ = .ok r) ∧
      (∃ r, mul 64 ⟨1, 2⟩ ⟨1, 3⟩ = .ok r)) ∧
    ∃ r, div 64 ⟨1, 2⟩ ⟨1, 3⟩ = .ok r :=
  ⟨(binary_operators_raise_iff (W := 64) (by decide) ⟨1, 2⟩ ⟨1, 3⟩).2.1 (by decide),
    (binary_operators_raise_iff (W := 64) (by decide) ⟨1, 2⟩ ⟨1, 3⟩).2.2.2 (by decide)
      (by decide)⟩

/-- C14 does not hold of the code: on `long`, with `a = 1/4294967296`, the compound
operators store the fixed-width denominator `4294967296 * 4294967296 = 0` and run `reduce`
without the zero check of the constructor, so that `a += a`, `a -= (-1/4294967296)`,
`a *= a` and `a /= (4294967296/1)` return with the receiver `1/0`, where the binary
operators on the same operands raise. With `b = 4294967295/4294967296` both fields of
`a += b` are `0` and `reduce` divides by the gcd `0`. -/
theorem compound_assignment_zero_denominator :
    construct 64 1 4294967296 = .ok ⟨1, 4294967296⟩ ∧
    construct 64 (-1) 4294967296 = .ok ⟨-1, 4294967296⟩ ∧
    construct 64 4294967296 1 = .ok ⟨4294967296, 1⟩ ∧
    construct 64 4294967295 4294967296 = .ok ⟨4294967295, 4294967296⟩ ∧
    addAssign 64 ⟨1, 4294967296⟩ ⟨1, 4294967296⟩ = (.ok (), ⟨1, 0⟩) ∧
    subAssign 64 ⟨1, 4294967296⟩ ⟨-1, 4294967296⟩ = (.ok (), ⟨1, 0⟩) ∧
    mulAssign 64 ⟨1, 4294967296⟩ ⟨1, 4294967296⟩ = (.ok (), ⟨1, 0⟩) ∧
    divAssign 64 ⟨1, 4294967296⟩ ⟨4294967296, 1⟩ = (.ok (), ⟨1, 0⟩) ∧
    add 64 ⟨1, 4294967296⟩ ⟨1, 4294967296⟩ = .error .invalidArgument ∧
    addAssign 64 ⟨1, 4294967296⟩ ⟨4294967295, 4294967296⟩ =
      (.error .undefinedDivision, ⟨0, 0⟩) := by
  refine ⟨by rfl, by rfl, by rfl, by rfl, by rfl, by rfl, by rfl, by rfl, by rfl, by rfl⟩

/-- C15: compound assignment agrees with the binary operator. For each of `+`, `-`, `*`,
`/` and all `a` and `b` (two objects) for which `a op b` returns the value `r`,
`a op= b` returns and leaves the receiver with exactly the fields of `r`. -/
theorem compound_agrees_with_binary (W : Nat) (a b r : Fraction) :
    (add W a b = .ok r → addAssign W a b = (.ok (), r)) ∧
    (sub W a b = .ok r → subAssign W a b = (.ok (), r)) ∧
    (mul W a b = .ok r → mulAssign W a b = (.ok (), r)) ∧
    (div W a b = .ok r → divAssign W a b = (.ok (), r)) := by
  refine ⟨fun h => ?_, fun h => ?_, fun h => ?_, fun h => ?_⟩
  · unfold addAssign
    simp only [mulT_comm W b.numerator_ a.denominator_]
    rw [reduce_of_construct_ok h]
    rfl
  · unfold subAssign
    simp only [mulT_comm W b.numerator_ a.denominator_]
    rw [reduce_of_construct_ok h]
    rfl
  · unfold mulAssign
    simp only []
    rw [reduce_of_construct_ok h]
    rfl
  · unfold div at h
    unfold divAssign
    split_ifs at h with h0
    rw [if_neg h0]
    simp only []
    rw [reduce_of_construct_ok h]
    rfl

/-- Witness for C15 on `long`: the four compound assignments of the test suite on
`-3/4` and `1/4`. -/
theorem compound_agrees_with_binary_witness :
    addAssign 64 ⟨-3, 4⟩ ⟨1, 4⟩ = (.ok (), ⟨-1, 2⟩) ∧
    subAssign 64 ⟨-3, 4⟩ ⟨1, 4⟩ = (.ok (), ⟨-1, 1⟩) ∧
    mulAssign 64 ⟨-3, 4⟩ ⟨1, 4⟩ = (.ok (), ⟨-3, 16⟩) ∧
    divAssign 64 ⟨-3, 4⟩ ⟨1, 4⟩ = (.ok (), ⟨-3, 1⟩) :=
  ⟨(compound_agrees_with_binary 64 ⟨-3, 4⟩ ⟨1, 4⟩ ⟨-1, 2⟩).1 (by rfl),
    (compound_agrees_with_binary 64 ⟨-3, 4⟩ ⟨1, 4⟩ ⟨-1, 1⟩).2.1 (by rfl),
    (compound_agrees_with_binary 64 ⟨-3, 4⟩ ⟨1, 4⟩ ⟨-3, 16⟩).2.2.1 (by rfl),
    (compound_agrees_with_binary 64 ⟨-3, 4⟩ ⟨1, 4⟩ ⟨-3, 1⟩).2.2.2 (by rfl)⟩

/-! ## Comparison -/

/-- C16: comparison consistency. For all `a` and `b` exactly one of `a < b`, `a == b`,
`a > b` is true, `a <= b` is the negation of `a > b`, `a >= b` is the negation of
`a < b`, and `a != b` is the negation of `a == b`. -/
theorem comparison_consistency (W : Nat) (a b : Fraction) :
    ((lt W a b = true ∧ eq W a b = false ∧ gt W a b = false) ∨
      (lt W a b = false ∧ eq W a b = true ∧ gt W a b = false) ∨
      (lt W a b = false ∧ eq W a b = false ∧ gt W a b = true)) ∧
    le W a b = !(gt W a b) ∧ ge W a b = !(lt W a b) ∧ ne W a b = !(eq W a b) := by
  refine ⟨?_, rfl, rfl, rfl⟩
  unfold lt eq gt
  generalize mulT W a.numerator_ b.denominator_ = x
  generalize mulT W a.denominator_ b.numerator_ = y
  rcases lt_trichotomy x y with h | h | h
  · left
    simp only [decide_eq_true_eq, decide_eq_false_iff_not]
    exact ⟨h, by omega, by omega⟩
  · right; left
    simp only [decide_eq_true_eq, decide_eq_false_iff_not]
    exact ⟨by omega, h, by omega⟩
  · right; right
    simp only [decide_eq_true_eq, decide_eq_false_iff_not]
    exact ⟨by omega, by omega, h⟩

/-- C17: comparison agrees with the order of the rationals. For all `a/b` and `c/d` with
`b > 0` and `d > 0` whose cross products `a*d` and `b*c` are representable, `==` is true
iff the rational numbers `a/b` and `c/d` are equal, `>` is true iff `a/b` is strictly
greater than `c/d`, and `<` is true iff `a/b` is strictly less than `c/d`. -/
theorem comparison_agrees_with_rationals {W : Nat} (hW : 8 ≤ W) {a b c d : Int}
    (hb : 0 < b) (hd : 0 < d) (had : InT W (a * d)) (hbc : InT W (b * c)) :
    (eq W ⟨a, b⟩ ⟨c, d⟩ = true ↔ (a : ℚ) / (b : ℚ) = (c : ℚ) / (d : ℚ)) ∧
    (gt W ⟨a, b⟩ ⟨c, d⟩ = true ↔ (a : ℚ) / (b : ℚ) > (c : ℚ) / (d : ℚ)) ∧
    (lt W ⟨a, b⟩ ⟨c, d⟩ = true ↔ (a : ℚ) / (b : ℚ) < (c : ℚ) / (d : ℚ)) := by
  have hbq : (0 : ℚ) < (b : ℚ) := by exact_mod_cast hb
  have hdq : (0 : ℚ) < (d : ℚ) := by exact_mod_cast hd
  have h1 : mulT W a d = a * d := wrap_of_inT hW had
  have h2 : mulT W b c = b * c := wrap_of_inT hW hbc
  refine ⟨?_, ?_, ?_⟩
  · simp only [eq, h1, h2, decide_eq_true_eq]
    rw [div_eq_div_iff hbq.ne' hdq.ne']
    constructor
    · intro h
      have : ((a * d : Int) : ℚ) = ((b * c : Int) : ℚ) := by rw [h]
      push_cast at this
      rw [this, mul_comm]
    · intro h
      have : ((a * d : Int) : ℚ) = ((b * c : Int) : ℚ) := by
        push_cast
        rw [h, mul_comm]
      exact_mod_cast this
  · simp only [gt, h1, h2, decide_eq_true_eq, gt_iff_lt]
    rw [div_lt_div_iff₀ hdq hbq]
    constructor
    · intro h
      have : ((b * c : Int) : ℚ) < ((a * d : Int) : ℚ) := by exact_mod_cast h
      push_cast at this
      rw [mul_comm (c : ℚ) (b : ℚ)]
      exact this
    · intro h
      rw [mul_comm (c : ℚ) (b : ℚ)] at h
      exact_mod_cast h
  · simp only [lt, h1, h2, decide_eq_true_eq]
    rw [div_lt_div_iff₀ hbq hdq]
    constructor
    · intro h
      have : ((a * d : Int) : ℚ) < ((b * c : Int) : ℚ) := by exact_mod_cast h
      push_cast at this
      rw [mul_comm (c : ℚ) (b : ℚ)]
      exact this
    · intro h
      rw [mul_comm (c : ℚ) (b : ℚ)] at h
      exact_mod_cast h

/-- Witness for C17 on `long`, at `-3/4` and `1/4` of the test suite. -/
theorem comparison_agrees_with_rationals_witness :
    ((eq 64 ⟨-3, 4⟩ ⟨1, 4⟩ = true ↔
      (((-3 : Int) : ℚ)) / ((4 : Int) : ℚ) = ((1 : Int) : ℚ) / ((4 : Int) : ℚ)) ∧
    (gt 64 ⟨-3, 4⟩ ⟨1, 4⟩ = true ↔
      (((-3 : Int) : ℚ)) / ((4 : Int) : ℚ) > ((1 : Int) : ℚ) / ((4 : Int) : ℚ)) ∧
    (lt 64 ⟨-3, 4⟩ ⟨1, 4⟩ = true ↔
      (((-3 : Int) : ℚ)) / ((4 : Int) : ℚ) < ((1 : Int) : ℚ) / ((4 : Int) : ℚ))) ∧
    lt 64 ⟨-3, 4⟩ ⟨1, 4⟩ = true ∧ gt 64 ⟨-3, 4⟩ ⟨-5, 4⟩ = true ∧
    eq 64 ⟨-3, 4⟩ ⟨-3, 4⟩ = true :=
  ⟨comparison_agrees_with_rationals (W := 64) (a := -3) (b := 4) (c := 1) (d := 4) (by decide)
    (by decide) (by decide) (by decide) (by decide), by rfl, by rfl, by rfl⟩

/-! ## Scalar operands, increment and decrement -/

/-- C18: scalar promotion equivalence. For every `r` and every representable scalar `k`,
the promotion `construct k 1` returns `f = k/1`, and each scalar form returns what the
fraction form returns on `f` (the same fields or the same failure): `r op k` as
`r op f` and `k op r` as `f op r`, for `+`, `-`, `*`, `/` and for the six comparison
operators. -/
theorem scalar_promotion_equivalence {W : Nat} (hW : 8 ≤ W) (r : Fraction) {k : Int}
    (hk : InT W k) :
    ∃ f, construct W k 1 = .ok f ∧ f = ⟨k, 1⟩ ∧
      (addScalar W r k = add W r f ∧ subScalar W r k = sub W r f ∧
        mulScalar W r k = mul W r f ∧ divScalar W r k = div W r f) ∧
      (scalarAdd W k r = add W f r ∧ scalarSub W k r = sub W f r ∧
        scalarMul W k r = mul W f r ∧ scalarDiv W k r = div W f r) ∧
      (eqScalar W r k = .ok (eq W r f) ∧ neScalar W r k = .ok (ne W r f) ∧
        gtScalar W r k = .ok (gt W r f) ∧ geScalar W r k = .ok (ge W r f) ∧
        ltScalar W r k = .ok (lt W r f) ∧ leScalar W r k = .ok (le W r f)) ∧
      (scalarEq W k r = .ok (eq W f r) ∧ scalarNe W k r = .ok (ne W f r) ∧
        scalarGt W k r = .ok (gt W f r) ∧ scalarGe W k r = .ok (ge W f r) ∧
        scalarLt W k r = .ok (lt W f r) ∧ scalarLe W k r = .ok (le W f r)) := by
  have h := ofScalar_eq hW hk
  refine ⟨⟨k, 1⟩, h, rfl, ⟨?_, ?_, ?_, ?_⟩, ⟨?_, ?_, ?_, ?_⟩, ⟨?_, ?_, ?_, ?_, ?_, ?_⟩,
    ⟨?_, ?_, ?_, ?_, ?_, ?_⟩⟩
  · unfold addScalar; rw [h]; rfl
  · unfold subScalar; rw [h]; rfl
  · unfold mulScalar; rw [h]; rfl
  · unfold divScalar; rw [h]; rfl
  · unfold scalarAdd; rw [h]; rfl
  · unfold scalarSub; rw [h]; rfl
  · unfold scalarMul; rw [h]; rfl
  · unfold scalarDiv; rw [h]; rfl
  · unfold eqScalar; rw [h]; rfl
  · unfold neScalar; rw [h]; rfl
  · unfold gtScalar; rw [h]; rfl
  · unfold geScalar; rw [h]; rfl
  · unfold ltScalar; rw [h]; rfl
  · unfold leScalar; rw [h]; rfl
  · unfold scalarEq; rw [h]; rfl
  · unfold scalarNe; rw [h]; rfl
  · unfold scalarGt; rw [h]; rfl
  · unfold scalarGe; rw [h]; rfl
  · unfold scalarLt; rw [h]; rfl
  · unfold scalarLe; rw [h]; rfl

/-- Witness for C18 on `long`, at `r = -4/1` and `k = -3` of the test suite, where
`-3 > r` and `r <= -3` are true. -/
theorem scalar_promotion_equivalence_witness :
    (∃ f, construct 64 (-3) 1 = .ok f ∧ f = ⟨-3, 1⟩ ∧
      (addScalar 64 ⟨-4, 1⟩ (-3) = add 64 ⟨-4, 1⟩ f ∧
        subScalar 64 ⟨-4, 1⟩ (-3) = sub 64 ⟨-4, 1⟩ f ∧
        mulScalar 64 ⟨-4, 1⟩ (-3) = mul 64 ⟨-4, 1⟩ f ∧
        divScalar 64 ⟨-4, 1⟩ (-3) = div 64 ⟨-4, 1⟩ f) ∧
      (scalarAdd 64 (-3) ⟨-4, 1⟩ = add 64 f ⟨-4, 1⟩ ∧
        scalarSub 64 (-3) ⟨-4, 1⟩ = sub 64 f ⟨-4, 1⟩ ∧
        scalarMul 64 (-3) ⟨-4, 1⟩ = mul 64 f ⟨-4, 1⟩ ∧
        scalarDiv 64 (-3) ⟨-4, 1⟩ = div 64 f ⟨-4, 1⟩) ∧
      (eqScalar 64 ⟨-4, 1⟩ (-3) = .ok (eq 64 ⟨-4, 1⟩ f) ∧
        neScalar 64 ⟨-4, 1⟩ (-3) = .ok (ne 64 ⟨-4, 1⟩ f) ∧
        gtScalar 64 ⟨-4, 1⟩ (-3) = .ok (gt 64 ⟨-4, 1⟩ f) ∧
        geScalar 64 ⟨-4, 1⟩ (-3) = .ok (ge 64 ⟨-4, 1⟩ f) ∧
        ltScalar 64 ⟨-4, 1⟩ (-3) = .ok (lt 64 ⟨-4, 1⟩ f) ∧
        leScalar 64 ⟨-4, 1⟩ (-3) = .ok (le 64 ⟨-4, 1⟩ f)) ∧
      (scalarEq 64 (-3) ⟨-4, 1⟩ = .ok (eq 64 f ⟨-4, 1⟩) ∧
        scalarNe 64 (-3) ⟨-4, 1⟩ = .ok (ne 64 f ⟨-4, 1⟩) ∧
        scalarGt 64 (-3) ⟨-4, 1⟩ = .ok (gt 64 f ⟨-4, 1⟩) ∧
        scalarGe 64 (-3) ⟨-4, 1⟩ = .ok (ge 64 f ⟨-4, 1⟩) ∧
        scalarLt 64 (-3) ⟨-4, 1⟩ = .ok (lt 64 f ⟨-4, 1⟩) ∧
        scalarLe 64 (-3) ⟨-4, 1⟩ = .ok (le 64 f ⟨-4, 1⟩))) ∧
    scalarGt 64 (-3) ⟨-4, 1⟩ = .ok true ∧ leScalar 64 ⟨-4, 1⟩ (-3) = .ok true ∧
    addScalar 64 ⟨-3, 4⟩ 2 = .ok ⟨5, 4⟩ :=
  ⟨scalar_promotion_equivalence (W := 64) (by decide) ⟨-4, 1⟩ (k := -3) (by decide),
    by rfl, by rfl, by rfl⟩

/-- When `a + 1` returns `r`, both increments leave `r` in the receiver; the prefix
form returns `r` and the postfix form the old value. -/
theorem incr_of_addScalar {W : Nat} {a r : Fraction} (h : addScalar W a 1 = .ok r) :
    preInc W a = (.ok r, r) ∧ postInc W a = (.ok a, r) := by
  have h1 : addAssignScalar W a 1 = (.ok (), r) := by
    unfold addScalar at h
    unfold addAssignScalar
    rw [h]
    rfl
  have h2 : preInc W a = (.ok r, r) := by
    unfold preInc
    rw [h1]
  refine ⟨h2, ?_⟩
  unfold postInc
  rw [h2]

/-- When `a - 1` returns `r`, both decrements leave `r` in the receiver; the prefix
form returns `r` and the postfix form the old value. -/
theorem decr_of_subScalar {W : Nat} {a r : Fraction} (h : subScalar W a 1 = .ok r) :
    preDec W a = (.ok r, r) ∧ postDec W a = (.ok a, r) := by
  have h1 : subAssignScalar W a 1 = (.ok (), r) := by
    unfold subScalar at h
    unfold subAssignScalar
    rw [h]
    rfl
  have h2 : preDec W a = (.ok r, r) := by
    unfold preDec
    rw [h1]
  refine ⟨h2, ?_⟩
  unfold postDec
  rw [h2]

/-- Adding the scalar `1` to a reduced `n/d` with `n + d` representable gives
`(n + d)/d`. -/
theorem addScalar_one {W : Nat} (hW : 8 ≤ W) {n d : Int} (hn : InT W n) (hd : InT W d)
    (hpos : 0 < d) (hcop : Int.gcd n d = 1) (hsum : InT W (n + d)) :
    addScalar W ⟨n, d⟩ 1 = .ok ⟨n + d, d⟩ := by
  have hc : Int.gcd (n + d) d = 1 := by
    rw [← Int.isCoprime_iff_gcd_eq_one] at hcop ⊢
    simpa using hcop.add_mul_left_left 1
  unfold addScalar
  rw [ofScalar_eq hW (inT_one hW)]
  show add W ⟨n, d⟩ ⟨1, 1⟩ = .ok ⟨n + d, d⟩
  simp only [add, addT, mulT, mul_one, wrap_of_inT hW hn, wrap_of_inT hW hd,
    wrap_of_inT hW hsum]
  exact construct_reduced hW hsum hd hpos hc

/-- Subtracting the scalar `1` from a reduced `n/d` with `n - d` representable gives
`(n - d)/d`. -/
theorem subScalar_one {W : Nat} (hW : 8 ≤ W) {n d : Int} (hn : InT W n) (hd : InT W d)
    (hpos : 0 < d) (hcop : Int.gcd n d = 1) (hdiff : InT W (n - d)) :
    subScalar W ⟨n, d⟩ 1 = .ok ⟨n - d, d⟩ := by
  have hc : Int.gcd (n - d) d = 1 := by
    rw [← Int.isCoprime_iff_gcd_eq_one] at hcop ⊢
    have := hcop.add_mul_left_left (-1)
    rwa [mul_neg_one, ← sub_eq_add_neg] at this
  unfold subScalar
  rw [ofScalar_eq hW (inT_one hW)]
  show sub W ⟨n, d⟩ ⟨1, 1⟩ = .ok ⟨n - d, d⟩
  simp only [sub, subT, mulT, mul_one, wrap_of_inT hW hn, wrap_of_inT hW hd,
    wrap_of_inT hW hdiff]
  exact construct_reduced hW hdiff hd hpos hc

/-- C19: prefix versus postfix. For every `a` for which `a + 1` returns the value `r`,
`++a` leaves the receiver equal to `r` and returns `r`, while `a++` leaves the receiver
equal to `r` and returns the value `a` held before the call; symmetrically for `--a` and
`a--` with `a - 1`. -/
theorem pre_post_increment (W : Nat) (a r : Fraction) :
    (addScalar W a 1 = .ok r → preInc W a = (.ok r, r) ∧ postInc W a = (.ok a, r)) ∧
    (subScalar W a 1 = .ok r → preDec W a = (.ok r, r) ∧ postDec W a = (.ok a, r)) :=
  ⟨fun h => incr_of_addScalar h, fun h => decr_of_subScalar h⟩

/-- Witness for C19 on `long`, at `-3/4` of the test suite. -/
theorem pre_post_increment_witness :
    (preInc 64 ⟨-3, 4⟩ = (.ok ⟨1, 4⟩, ⟨1, 4⟩) ∧ postInc 64 ⟨-3, 4⟩ = (.ok ⟨-3, 4⟩, ⟨1, 4⟩)) ∧
    (preDec 64 ⟨-3, 4⟩ = (.ok ⟨-7, 4⟩, ⟨-7, 4⟩) ∧
      postDec 64 ⟨-3, 4⟩ = (.ok ⟨-3, 4⟩, ⟨-7, 4⟩)) :=
  ⟨(pre_post_increment 64 ⟨-3, 4⟩ ⟨1, 4⟩).1 (by rfl), (pre_post_increment 64 ⟨-3, 4⟩ ⟨-7, 4⟩).2 (by rfl)⟩

/-- C20: increment keeps the denominator. For every representable `n/d` with `d > 0`
and `gcd(|n|, d) = 1`: if `n + d` is representable, the prefix and the postfix increment
leave the receiver with numerator `n + d` and denominator `d`; if `n - d` is
representable, the prefix and the postfix decrement leave the receiver with numerator
`n - d` and denominator `d`. -/
theorem increment_keeps_denominator {W : Nat} (hW : 8 ≤ W) {n d : Int} (hn : InT W n)
    (hd : InT W d) (hpos : 0 < d) (hcop : Int.gcd n d = 1) :
    (InT W (n + d) →
      preInc W ⟨n, d⟩ = (.ok ⟨n + d, d⟩, ⟨n + d, d⟩) ∧
        postInc W ⟨n, d⟩ = (.ok ⟨n, d⟩, ⟨n + d, d⟩)) ∧
    (InT W (n - d) →
      preDec W ⟨n, d⟩ = (.ok ⟨n - d, d⟩, ⟨n - d, d⟩) ∧
        postDec W ⟨n, d⟩ = (.ok ⟨n, d⟩, ⟨n - d, d⟩)) :=
  ⟨fun h => incr_of_addScalar (addScalar_one hW hn hd hpos hcop h),
    fun h => decr_of_subScalar (subScalar_one hW hn hd hpos hcop h)⟩

/-- Witness for C20 on `long`: `++(-3/4) = 1/4` and `--(-3/4) = -7/4` of the test
suite. -/
theorem increment_keeps_denominator_witness :
    (preInc 64 ⟨-3, 4⟩ = (.ok ⟨-3 + 4, 4⟩, ⟨-3 + 4, 4⟩) ∧
      postInc 64 ⟨-3, 4⟩ = (.ok ⟨-3, 4⟩, ⟨-3 + 4, 4⟩)) ∧
    (preDec 64 ⟨-3, 4⟩ = (.ok ⟨-3 - 4, 4⟩, ⟨-3 - 4, 4⟩) ∧
      postDec 64 ⟨-3, 4⟩ = (.ok ⟨-3, 4⟩, ⟨-3 - 4, 4⟩)) :=
  ⟨(increment_keeps_denominator (W := 64) (n := -3) (d := 4) (by decide) (by decide)
      (by decide) (by decide) (by decide)).1 (by decide),
    (increment_keeps_denominator (W := 64) (n := -3) (d := 4) (by decide) (by decide)
      (by decide) (by decide) (by decide)).2 (by decide)⟩

/-! ## The boundary value `T_MIN` and the canonical zero -/

theorem inT_tMin {W : Nat} (hW : 8 ≤ W) : InT W (tMin W) := by
  obtain ⟨_, hP⟩ := two_pow_width hW
  unfold InT tMin tMax
  constructor <;> omega

theorem tMin_ne_zero {W : Nat} (hW : 8 ≤ W) : tMin W ≠ 0 := by
  obtain ⟨_, hP⟩ := two_pow_width hW
  unfold tMin
  omega

/-- When the mathematical gcd is `2 ^ (W - 1)` the library gcd comes back as `T_MIN`. -/
theorem gcdT_big {W : Nat} (hW : 8 ≤ W) {n d : Int}
    (hg : (Int.gcd n d : Int) = 2 ^ (W - 1)) : gcdT W n d = tMin W := by
  unfold gcdT
  rw [hg, wrap_two_pow hW]

/-- C22: single-field `T_MIN` clamping. For every representable odd `n` (so `n ≠ T_MIN`
and `gcd(|n|, |T_MIN|) = 1`), `construct n T_MIN` has numerator `-n` and denominator
`T_MAX - 1`; and for every representable odd `d < 0`, `construct T_MIN d` has numerator
`T_MAX - 1` and denominator `-d`. -/
theorem single_field_clamp {W : Nat} (hW : 8 ≤ W) :
    (∀ n : Int, InT W n → n % 2 = 1 →
      n ≠ tMin W ∧ Int.gcd n (tMin W) = 1 ∧
      ∃ r, construct W n (tMin W) = .ok r ∧ getNumerator r = -n ∧
        getDenominator r = tMax W - 1) ∧
    (∀ d : Int, InT W d → d < 0 → d % 2 = 1 →
      ∃ r, construct W (tMin W) d = .ok r ∧ getNumerator r = tMax W - 1 ∧
        getDenominator r = -d) := by
  have hev := even_tMin hW
  refine ⟨fun n hn hodd => ⟨?_, (gcd_tMin_eq_one_iff hW n).mpr hodd, ⟨-n, tMax W - 1⟩, ?_, rfl,
    rfl⟩, fun d hd hneg hodd => ⟨⟨tMax W - 1, -d⟩, ?_, rfl, rfl⟩⟩
  · intro h
    rw [h] at hodd
    omega
  · rw [construct_of_ne_zero W n (tMin_ne_zero hW),
      reduce_eq hW hn (inT_tMin hW) (tMin_ne_zero hW), if_pos ⟨rfl, hodd⟩]
  · have h1 : ¬ (d = tMin W ∧ tMin W % 2 = 1) := by
      rintro ⟨-, h⟩
      omega
    rw [construct_of_ne_zero W (tMin W) (by omega : d ≠ 0),
      reduce_eq hW (inT_tMin hW) hd (by omega), if_neg h1, if_pos ⟨rfl, hneg, hodd⟩]

/-- Witness for C22 on `long`: `construct(823, T_MIN)` of the test suite has denominator
`T_MAX - 1`, and `construct(T_MIN, -3)` has numerator `T_MAX - 1`. -/
theorem single_field_clamp_witness :
    ((823 : Int) ≠ tMin 64 ∧ Int.gcd 823 (tMin 64) = 1 ∧
      ∃ r, construct 64 823 (tMin 64) = .ok r ∧ getNumerator r = -823 ∧
        getDenominator r = tMax 64 - 1) ∧
    (∃ r, construct 64 (tMin 64) (-3) = .ok r ∧ getNumerator r = tMax 64 - 1 ∧
        getDenominator r = -(-3)) :=
  ⟨(single_field_clamp (W := 64) (by decide)).1 823 (by decide) (by decide),
    (single_field_clamp (W := 64) (by decide)).2 (-3) (by decide) (by decide) (by decide)⟩

/-- C24: canonical zero. For every representable `d ≠ 0` (positive, negative or `T_MIN`),
`construct 0 d` has numerator `0` and denominator `1`, the gcd computed by `reduce`
being `|d|`, which comes back as `T_MIN` when `d = T_MIN`; so all zero-valued results of
the constructor have the same stored fields. -/
theorem canonical_zero {W : Nat} (hW : 8 ≤ W) {d : Int} (hd : InT W d) (hd0 : d ≠ 0) :
    (∃ r, construct W 0 d = .ok r ∧ getNumerator r = 0 ∧ getDenominator r = 1) ∧
    gcdT W 0 d = (if d = tMin W then tMin W else |d|) ∧
    ∀ e : Int, InT W e → e ≠ 0 → construct W 0 e = construct W 0 d := by
  refine ⟨⟨⟨0, 1⟩, construct_zero hW hd hd0, rfl, rfl⟩, ?_, fun e he he0 => ?_⟩
  · have habs : ((Int.gcd 0 d : Nat) : Int) = |d| := by
      rw [Int.gcd_zero_left]
      exact Int.natCast_natAbs d
    by_cases h : d = tMin W
    · rw [if_pos h]
      apply gcdT_big hW
      rw [habs, h]
      unfold tMin
      rw [abs_neg, abs_of_pos (by positivity)]
    · rw [if_neg h]
      unfold gcdT
      rw [habs]
      apply wrap_of_inT hW
      unfold InT tMin tMax at *
      rcases abs_cases d with ⟨h1, _⟩ | ⟨h1, _⟩ <;> rw [h1] <;> constructor <;> omega
  · rw [construct_zero hW he he0, construct_zero hW hd hd0]

/-- Witness for C24 on `long`, at `construct(0, T_MIN)` of the test suite. -/
theorem canonical_zero_witness :
    (∃ r, construct 64 0 (tMin 64) = .ok r ∧ getNumerator r = 0 ∧ getDenominator r = 1) ∧
    gcdT 64 0 (tMin 64) = (if tMin 64 = tMin 64 then tMin 64 else |tMin 64|) ∧
    ∀ e : Int, InT 64 e → e ≠ 0 → construct 64 0 e = construct 64 0 (tMin 64) :=
  canonical_zero (W := 64) (d := tMin 64) (by decide) (by decide) (by decide)

/-! ## The branch of `reduce` that clamps both fields -/

/-- After the two divisions of `reduce` the fields are never both `T_MIN`, for a zero
denominator as well. -/
theorem not_both_tMin {W : Nat} (hW : 8 ≤ W) {n d : Int} (hn : InT W n) (hd : InT W d) :
    ¬ (divT W n (gcdT W n d) = .ok (tMin W) ∧ divT W d (gcdT W n d) = .ok (tMin W)) := by
  obtain ⟨_, hP⟩ := two_pow_width hW
  rintro ⟨h1, h2⟩
  by_cases hd0 : d = 0
  · subst hd0
    unfold divT at h2
    split_ifs at h2
    rw [Int.zero_tdiv] at h2
    exact tMin_ne_zero hW (Except.ok.inj h2).symm
  · have hb := gcd_bounds hW (n := n) hd hd0
    have hg1 : (1 : Int) ≤ Int.gcd n d := by omega
    rcases lt_or_eq_of_le hb.2 with hg | hg
    · rw [gcdT_small hW hd hd0 hg, divT_exact hg1 Int.gcd_dvd_left] at h1
      rw [gcdT_small hW hd hd0 hg, divT_exact hg1 Int.gcd_dvd_right] at h2
      obtain ⟨-, -, -, hcop⟩ := reduced_pair hW hn hd hd0
      have h3 : Int.gcd (tMin W) (tMin W) = 1 := by
        rw [Except.ok.inj h1, Except.ok.inj h2] at hcop
        exact hcop
      rw [Int.gcd_self] at h3
      have := natAbs_tMin W
      rw [h3] at this
      omega
    · obtain ⟨hdmin, -⟩ := gcd_eq_big hW hn hd hd0 hg
      rw [gcdT_big hW hg, hdmin, tMin_div_self hW] at h2
      have : (1 : Int) = tMin W := Except.ok.inj h2
      unfold tMin at this
      omega

/-- The constructor never returns the pair with both fields `T_MAX - 1`. -/
theorem construct_ne_both_clamped {W : Nat} (hW : 8 ≤ W) {n d : Int} (hn : InT W n)
    (hd : InT W d) (hd0 : d ≠ 0) : construct W n d ≠ .ok ⟨tMax W - 1, tMax W - 1⟩ := by
  obtain ⟨_, hP⟩ := two_pow_width hW
  have hmax : tMax W - 1 = 2 * (2 ^ (W - 1) / 2 - 1) := by
    have : (2 : Int) ∣ 2 ^ (W - 1) := dvd_pow_self 2 (by omega)
    unfold tMax
    omega
  rw [construct_of_ne_zero W n hd0, reduce_eq hW hn hd hd0]
  intro h
  injection h with h
  split_ifs at h with h1 h2
  · injection h with e1 e2
    have := h1.2
    omega
  · injection h with e1 e2
    have := h2.2.2
    omega
  · have hcop := sign_mul_quot_coprime n hd0
    injection h with e1 e2
    rw [e1, e2, Int.gcd_self] at hcop
    have h3 : ((tMax W - 1).natAbs : Int) = |tMax W - 1| := Int.natCast_natAbs _
    rw [hcop, abs_of_pos (by unfold tMax; omega)] at h3
    unfold tMax at h3
    omega

/-- C25: the clamp-both branch of `reduce` is unreachable. For all representable `n` and
`d`, after both fields are divided by the gcd as the library returns it, they are never
both equal to `T_MIN`; no call of the constructor with `d ≠ 0` returns the pair with both
fields `T_MAX - 1`; and `construct T_MIN T_MIN` returns numerator `1` and
denominator `1`. -/
theorem clamp_both_unreachable {W : Nat} (hW : 8 ≤ W) :
    (∀ n d : Int, InT W n → InT W d →
      ¬ (divT W n (gcdT W n d) = .ok (tMin W) ∧ divT W d (gcdT W n d) = .ok (tMin W))) ∧
    (∀ n d : Int, InT W n → InT W d → d ≠ 0 →
      construct W n d ≠ .ok ⟨tMax W - 1, tMax W - 1⟩) ∧
    construct W (tMin W) (tMin W) = .ok ⟨1, 1⟩ := by
  refine ⟨fun n d hn hd => not_both_tMin hW hn hd,
    fun n d hn hd hd0 => construct_ne_both_clamped hW hn hd hd0, ?_⟩
  rw [construct_of_ne_zero W (tMin W) (tMin_ne_zero hW), reduce_min_min hW]

/-- Witness for C25 on `long`, at `n = d = T_MIN`. -/
theorem clamp_both_unreachable_witness :
    ¬ (divT 64 (tMin 64) (gcdT 64 (tMin 64) (tMin 64)) = .ok (tMin 64) ∧
      divT 64 (tMin 64) (gcdT 64 (tMin 64) (tMin 64)) = .ok (tMin 64)) ∧
    construct 64 (tMin 64) (tMin 64) ≠ .ok ⟨tMax 64 - 1, tMax 64 - 1⟩ ∧
    construct 64 (tMin 64) (tMin 64) = .ok ⟨1, 1⟩ :=
  ⟨(clamp_both_unreachable (W := 64) (by decide)).1 (tMin 64) (tMin 64) (by decide) (by decide),
    (clamp_both_unreachable (W := 64) (by decide)).2.1 (tMin 64) (tMin 64) (by decide)
      (by decide) (by decide),
    (clamp_both_unreachable (W := 64) (by decide)).2.2⟩

/-- C26: equality coincides with identity of the stored pair on reduced values. For all
`a` and `b` with positive denominators, coprime numerator and denominator, and
representable cross products, `a == b` is true iff `a` and `b` have the same
`getNumerator` and the same `getDenominator`. -/
theorem eq_iff_same_fields {W : Nat} (hW : 8 ≤ W) {a b : Fraction}
    (ha : 0 < a.denominator_) (hb : 0 < b.denominator_)
    (hca : Int.gcd a.numerator_ a.denominator_ = 1)
    (hcb : Int.gcd b.numerator_ b.denominator_ = 1)
    (h1 : InT W (a.numerator_ * b.denominator_)) (h2 : InT W (a.denominator_ * b.numerator_)) :
    eq W a b = true ↔
      getNumerator a = getNumerator b ∧ getDenominator a = getDenominator b := by
  have haq : ((a.denominator_ : Int) : ℚ) ≠ 0 := by exact_mod_cast ha.ne'
  have hbq : ((b.denominator_ : Int) : ℚ) ≠ 0 := by exact_mod_cast hb.ne'
  simp only [eq, mulT, wrap_of_inT hW h1, wrap_of_inT hW h2, decide_eq_true_eq, getNumerator,
    getDenominator]
  constructor
  · intro h
    apply reduced_pair_unique ha hca hb hcb
    rw [div_eq_div_iff haq hbq]
    have : ((a.numerator_ * b.denominator_ : Int) : ℚ) =
        ((a.denominator_ * b.numerator_ : Int) : ℚ) := by rw [h]
    push_cast at this
    rw [this, mul_comm]
  · rintro ⟨e1, e2⟩
    rw [e1, e2, mul_comm]

/-- Witness for C26 on `long`, at `-3/4` and `-3/4` of the test suite, with `-3/4` and
`1/4` comparing unequal. -/
theorem eq_iff_same_fields_witness :
    (eq 64 ⟨-3, 4⟩ ⟨-3, 4⟩ = true ↔
      getNumerator ⟨-3, 4⟩ = getNumerator ⟨-3, 4⟩ ∧
        getDenominator ⟨-3, 4⟩ = getDenominator ⟨-3, 4⟩) ∧
    eq 64 ⟨-3, 4⟩ ⟨-3, 4⟩ = true ∧ eq 64 ⟨-3, 4⟩ ⟨1, 4⟩ = false :=
  ⟨eq_iff_same_fields (W := 64) (a := ⟨-3, 4⟩) (b := ⟨-3, 4⟩) (by decide) (by decide) (by decide)
    (by decide) (by decide) (by decide) (by decide), by rfl, by rfl⟩

/-! ## Conversion to text -/

theorem digitChar_isDigit {m : Nat} (hm : m < 10) : (Nat.digitChar m).isDigit = true := by
  interval_cases m <;> rfl

theorem toDigitsCore_isDigit (fuel : Nat) : ∀ (n : Nat) (ds : List Char),
    (∀ c ∈ ds, c.isDigit = true) →
      ∀ c ∈ Nat.toDigitsCore 10 fuel n ds, c.isDigit = true := by
  induction fuel with
  | zero =>
    intro n ds h c hc
    exact h c hc
  | succ fuel ih =>
    intro n ds h c hc
    have hd : ∀ c ∈ Nat.digitChar (n % 10) :: ds, c.isDigit = true := by
      intro c hc
      rcases List.mem_cons.mp hc with rfl | hc
      · exact digitChar_isDigit (Nat.mod_lt n (by norm_num))
      · exact h c hc
    unfold Nat.toDigitsCore at hc
    simp only at hc
    split_ifs at hc
    · exact hd c hc
    · exact ih _ _ hd c hc

/-- The decimal rendering of a natural number consists of digits. -/
theorem repr_isDigit (n : Nat) : ∀ c ∈ (Nat.repr n).data, c.isDigit = true := by
  intro c hc
  exact toDigitsCore_isDigit _ _ _ (by simp) c hc

/-- The rendering of a field consists of digits and the sign `-`. -/
theorem to_string_chars (x : Int) : ∀ c ∈ (to_string x).data, c.isDigit = true ∨ c = '-' := by
  intro c hc
  unfold to_string at hc
  split_ifs at hc
  · rw [String.data_append] at hc
    rcases List.mem_append.mp hc with h | h
    · right
      simpa using h
    · exact Or.inl (repr_isDigit _ c h)
  · exact Or.inl (repr_isDigit _ c hc)

theorem slash_not_mem_to_string (x : Int) : '/' ∉ (to_string x).data := by
  intro h
  rcases to_string_chars x _ h with h1 | h1
  · exact absurd h1 (by decide)
  · exact absurd h1 (by decide)

/-- C21: the format of `toString`. For every `r`, `r.toString()` is the decimal rendering
of the stored numerator, followed by the single character `/`, followed by the decimal
rendering of the stored denominator; the renderings consist of digits and the sign, so
the result has no space and exactly one `/`; and the denominator is written also when it
is `1`. -/
theorem toString_format (r : Fraction) :
    toString r = to_string r.numerator_ ++ "/" ++ to_string r.denominator_ ∧
    (toString r).data =
      (to_string r.numerator_).data ++ '/' :: (to_string r.denominator_).data ∧
    (∀ c ∈ (toString r).data, c.isDigit = true ∨ c = '-' ∨ c = '/') ∧
    (∀ c ∈ (toString r).data, c ≠ Char.ofNat 32) ∧
    (toString r).data.count '/' = 1 ∧
    ∀ n : Int, toString ⟨n, 1⟩ = to_string n ++ "/1" := by
  have hdata : (toString r).data =
      (to_string r.numerator_).data ++ '/' :: (to_string r.denominator_).data := by
    unfold toString
    rw [String.data_append, String.data_append]
    simp
  have hchars : ∀ c ∈ (toString r).data, c.isDigit = true ∨ c = '-' ∨ c = '/' := by
    intro c hc
    rw [hdata] at hc
    rcases List.mem_append.mp hc with h | h
    · rcases to_string_chars _ c h with h1 | h1
      · exact Or.inl h1
      · exact Or.inr (Or.inl h1)
    · rcases List.mem_cons.mp h with h1 | h1
      · exact Or.inr (Or.inr h1)
      · rcases to_string_chars _ c h1 with h2 | h2
        · exact Or.inl h2
        · exact Or.inr (Or.inl h2)
  have hone : ∀ n : Int, toString ⟨n, 1⟩ = to_string n ++ "/1" := by
    intro n
    have h1 : "/" ++ to_string 1 = "/1" := by decide
    show to_string n ++ "/" ++ to_string 1 = to_string n ++ "/1"
    rw [String.append_assoc, h1]
  refine ⟨rfl, hdata, hchars, fun c hc hsp => ?_, ?_, hone⟩
  · rcases hchars c hc with h | h | h
    · rw [hsp] at h
      exact absurd h (by decide)
    · rw [hsp] at h
      exact absurd h (by decide)
    · rw [hsp] at h
      exact absurd h (by decide)
  · rw [hdata, List.count_append, List.count_cons_self,
      List.count_eq_zero.mpr (slash_not_mem_to_string _),
      List.count_eq_zero.mpr (slash_not_mem_to_string _)]

/-- Witness for C21 on `long`: `construct(-13, 7)` stores `-13/7`, and its `toString`
is the text of the test suite. -/
theorem toString_format_witness :
    construct 64 (-13) 7 = .ok ⟨-13, 7⟩ ∧ toString ⟨-13, 7⟩ = "-13/7" ∧
    toString ⟨5, 1⟩ = "5/1" :=
  ⟨by rfl, (toString_format ⟨-13, 7⟩).1.trans (by rfl), ((toString_format ⟨5, 1⟩).2.2.2.2.2 5).trans
    (by rfl)⟩

/-! ## Compound division of a value by itself -/

/-- What `a /= a` leaves in the receiver `a = n/d` with `n ≠ 0`, `d > 0` and
representable products: the second assignment multiplies the denominator by the
numerator already replaced by `n * d`, `reduce` runs on `n*d / (d * (n*d))`, and the
receiver becomes `1/d`. -/
theorem divAssignSelf_eq {W : Nat} (hW : 8 ≤ W) {n d : Int} (hn0 : n ≠ 0) (hpos : 0 < d)
    (hN : InT W (n * d)) (hD : InT W (d * (n * d))) :
    divAssignSelf W ⟨n, d⟩ = (.ok (), ⟨1, d⟩) := by
  have hev := even_tMin hW
  have hN0 : n * d ≠ 0 := mul_ne_zero hn0 (by omega)
  have hD0 : d * (n * d) ≠ 0 := mul_ne_zero (by omega) hN0
  have h1 : ¬ (d * (n * d) = tMin W ∧ n * d % 2 = 1) := by
    rintro ⟨h, hodd⟩
    have hoN : Odd (n * d) := Int.odd_iff.mpr hodd
    have hod : Odd d := (Int.odd_mul.mp hoN).2
    have := Int.odd_iff.mp (Int.odd_mul.mpr ⟨hod, hoN⟩)
    rw [h] at this
    omega
  have h2 : ¬ (n * d = tMin W ∧ d * (n * d) < 0 ∧ d * (n * d) % 2 = 1) := by
    rintro ⟨h, -, hodd⟩
    have := Int.odd_iff.mp (Int.odd_mul.mp (Int.odd_iff.mpr hodd)).2
    rw [h] at this
    omega
  have hg : ((Int.gcd (n * d) (d * (n * d)) : Nat) : Int) = |n * d| := by
    rw [Int.gcd_eq_left (dvd_mul_left (n * d) d)]
    exact Int.natCast_natAbs _
  have hs : Int.sign (d * (n * d)) = Int.sign (n * d) := by
    rw [Int.sign_mul, Int.sign_eq_one_of_pos hpos, one_mul]
  have hq1 : n * d / |n * d| = Int.sign (n * d) := (Int.sign_eq_ediv_abs _).symm
  have hq2 : d * (n * d) / |n * d| = d * Int.sign (n * d) := by
    rw [Int.mul_ediv_assoc d ((abs_dvd _ _).mpr dvd_rfl), hq1]
  have hss : Int.sign (n * d) * Int.sign (n * d) = 1 := by
    rcases lt_or_gt_of_ne hN0 with h | h
    · rw [Int.sign_eq_neg_one_of_neg h]
      norm_num
    · rw [Int.sign_eq_one_of_pos h]
      norm_num
  have hr : reduce W ⟨n * d, d * (n * d)⟩ = .ok ⟨1, d⟩ := by
    rw [reduce_eq hW hN hD hD0, if_neg h1, if_neg h2, hg, hs, hq1, hq2, hss,
      mul_left_comm, hss, mul_one]
  unfold divAssignSelf
  simp only [if_neg hn0, mulT, wrap_of_inT hW hN, wrap_of_inT hW hD, hr]
  rfl

/-- C23 does not hold of the code: on `long`, with `a = 1/2`, executing `a /= a` stores
the numerator `1 * 2 = 2`, then reads that new numerator through `other` and stores the
denominator `2 * 2 = 4`, and `reduce` leaves the receiver `1/2`, where `a / a` and
`a /= b` with a copy `b` of `a` give `1/1`. More generally the receiver `n/d` becomes
`1/d`. -/
theorem self_division_keeps_denominator :
    construct 64 1 2 = .ok ⟨1, 2⟩ ∧
    divAssignSelf 64 ⟨1, 2⟩ = (.ok (), ⟨1, 2⟩) ∧
    div 64 ⟨1, 2⟩ ⟨1, 2⟩ = .ok ⟨1, 1⟩ ∧
    divAssign 64 ⟨1, 2⟩ ⟨1, 2⟩ = (.ok (), ⟨1, 1⟩) ∧
    construct 64 (-3) 4 = .ok ⟨-3, 4⟩ ∧
    divAssignSelf 64 ⟨-3, 4⟩ = (.ok (), ⟨1, 4⟩) ∧
    div 64 ⟨-3, 4⟩ ⟨-3, 4⟩ = .ok ⟨1, 1⟩ := by
  refine ⟨by rfl, by rfl, by rfl, by rfl, by rfl, by rfl, by rfl⟩

end Fraction
